import Mathlib

/-!
Shallow embedding of the package-signing pipeline of
`src/common_library/signer/base_signer.py` (class `BaseSigner`), together
with the constants it uses from `src/common_library/constants.py`.

External collaborators (the download transport, the verification /
notarization client, the upload backend, the external `rpmsign` process,
the reporting callback) are abstract parameters (`Env`): `BaseSigner`
declares them as `NotImplementedError` stubs overridden by child classes,
so only their success/failure behaviour is relevant here.  Machinery that
is pure control flow in the Python source (dict insertion order, set
membership, the try/except/finally structure) is modelled explicitly.
-/

namespace Signer

/-- `SignStatusEnum` from `constants.py`. -/
inductive SignStatusEnum
  | SUCCESS
  | READ_ERROR
  | NO_SIGNATURE
  | WRONG_SIGNATURE
deriving DecidableEq, Repr

/-- `DEFAULT_PARALLEL_FILE_UPLOAD_SIZE` from `constants.py`. -/
def DEFAULT_PARALLEL_FILE_UPLOAD_SIZE : Nat := 52428800

/-- Python's `str.lower()` over the model's signer/key identifiers: lower
every character.  (Defined via `List.map` so that proofs can evaluate it;
Lean's own `String.toLower` is definitionally opaque to the kernel.) -/
def strLower (s : String) : String := ⟨s.data.map Char.toLower⟩

/-- What `BaseSigner._check_signature.check` observes about an RPM file on
disk: the file is missing/unreadable, its header carries no
`RPMTAG_SIGGPG`/`RPMTAG_SIGPGP` field, or it carries an embedded PGP
message whose signatures name the given signer key ids (in order). -/
inductive RpmFile
  | unreadable
  | noSignature
  | signed (signers : List String)
deriving DecidableEq, Repr

/-- The signature-inspection loop of `check` (base_signer.py lines 72-81):
walk the PGP message's signatures, returning `SUCCESS` on the first signer
equal to the lowered key id or contained in the lowered subkey list;
otherwise `WRONG_SIGNATURE` together with the last signer looked at
(`sig` starts as the empty string). -/
def checkLoop (keyIdLower : String) (subkeys : List String) :
    List String → String → SignStatusEnum × String
  | [], sig => (.WRONG_SIGNATURE, sig)
  | s :: rest, _ =>
    let sig := strLower s
    if sig = keyIdLower then (.SUCCESS, "")
    else if subkeys ≠ [] ∧ sig ∈ subkeys then (.SUCCESS, "")
    else checkLoop keyIdLower subkeys rest sig

/-- `check` from `BaseSigner._check_signature` (lines 59-81): classify one
RPM path.  `subkeysRaw` is `self.__key_ids[key_id]["subkeys"]`; the caller
lowers both the key id and the subkeys, as the source does. -/
def check (keyId : String) (subkeysRaw : List String) (f : RpmFile) :
    SignStatusEnum × String :=
  let keyIdLower := strLower keyId
  let subkeys := subkeysRaw.map strLower
  match f with
  | .unreadable => (.READ_ERROR, "")
  | .noSignature => (.NO_SIGNATURE, "")
  | .signed signers => checkLoop keyIdLower subkeys signers ""

/-- The error-collection loop of `BaseSigner._check_signature`
(lines 83-99): one human-readable message per failing file, none for
`SUCCESS`.  `fs` gives each path's on-disk observation; `files` is given in
the (nondeterministic) completion order of the thread pool. -/
def check_signature (keyId : String) (subkeysRaw : List String)
    (fs : String → RpmFile) (files : List String) : List String :=
  files.foldl
    (fun errors file =>
      let rs := check keyId subkeysRaw (fs file)
      if rs.1 = SignStatusEnum.READ_ERROR then
        errors ++ ["Cannot read file " ++ file]
      else if rs.1 = SignStatusEnum.NO_SIGNATURE then
        errors ++ ["Package " ++ file ++ " is not signed"]
      else if rs.1 = SignStatusEnum.WRONG_SIGNATURE then
        errors ++
          ["Package " ++ file ++ " is signed with the wrong key: " ++ rs.2]
      else errors)
    []

/-- Whether a signer name is authorized for `keyId`/`subkeysRaw` under the
case-insensitive comparison performed by `check`. -/
def authorized (keyId : String) (subkeysRaw : List String) (s : String) :
    Prop :=
  strLower s = strLower keyId ∨ strLower s ∈ subkeysRaw.map strLower

instance (keyId : String) (subkeysRaw : List String) (s : String) :
    Decidable (authorized keyId subkeysRaw s) := by
  unfold authorized; infer_instance

/-- The RPM batching loop of `BaseSigner._sign_build` (lines 195-209):
append each globbed path to `packages_to_sign`, and every time the
accumulator's length is divisible by 50 flush it as one
`sign_rpm_package` invocation.  Returns (flushed batches, leftover). -/
def signRpmLoopGo (batches : List (List String)) (acc : List String) :
    List String → List (List String) × List String
  | [] => (batches, acc)
  | p :: rest =>
    let acc2 := acc ++ [p]
    if acc2.length % 50 = 0 then signRpmLoopGo (batches ++ [acc2]) [] rest
    else signRpmLoopGo batches acc2 rest

/-- The complete batching of `_sign_build` lines 195-217: the loop above
followed by the trailing `if packages_to_sign:` flush.  The result is the
list of path lists passed to `sign_rpm_package`, one per invocation, in
order. -/
def rpmSignBatches (files : List String) : List (List String) :=
  let br := signRpmLoopGo [] [] files
  if br.2 ≠ [] then br.1 ++ [br.2] else br.1

/-- Retry loop of `BaseSigner._download_package` (lines 411-429), with the
remaining attempt count made structural: `att i` is the outcome of the
`i`-th call to `download_file` (1-based), `last` is `last_exc`.  Returns
(number of attempts actually made, final outcome); exhaustion re-raises
the last error (`none` only when the loop never ran). -/
def downloadGo (att : Nat → Except String Unit) (path : String) :
    Nat → Nat → Option String → Nat × Except (Option String) String
  | 0, _, last => (0, .error last)
  | rem + 1, i, _ =>
    match att i with
    | .ok _ => (1, .ok path)
    | .error e =>
      let nr := downloadGo att path rem (i + 1) (some e)
      (nr.1 + 1, nr.2)

/-- `BaseSigner._download_package`'s control flow: up to `tryCount`
attempts (the source's default is 3), returning the package path on the
first success and re-raising the last error after exhaustion. -/
def download_package (att : Nat → Except String Unit) (path : String)
    (tryCount : Nat) : Nat × Except (Option String) String :=
  downloadGo att path tryCount 1 none

/-- Python truthiness of an optional string value
(`if pkg_info.get('cas_hash')`, `if not package.get('href')`,
`if uploaded`): present and non-empty. -/
def optTruthy (o : Option String) : Bool := o.getD "" ≠ ""

/-- The configuration fields `_sign_build` reads from `self._config`. -/
structure Config where
  parallel_upload : Bool
  parallel_upload_file_size : Nat
deriving DecidableEq, Repr

/-- One entry of `self.__key_ids` (password, fingerprint, subkeys). -/
structure KeyInfo where
  password : String
  fingerprint : String
  subkeys : List String
deriving DecidableEq, Repr

/-- A package descriptor from the task payload.  `pkg_type` models the
resolved `pkg.get('type', pkg.get('package_type', 'rpm'))` lookup chain
(`none` = neither key present); `file_name`/`cas_hash` are the optional
dict keys of the same names. -/
structure Pkg where
  id : Nat
  name : String
  file_name : Option String
  pkg_type : Option String
  cas_hash : Option String
deriving DecidableEq, Repr

/-- `pkg.get('file_name', pkg.get('name'))`. -/
def Pkg.fname (p : Pkg) : String := p.file_name.getD p.name

/-- `pkg.get('type', pkg.get('package_type', 'rpm'))`. -/
def Pkg.ptype (p : Pkg) : String := p.pkg_type.getD "rpm"

/-- A sign task.  `keyid` models `task.get('keyid', task.get('pgp_keyid'))`;
`packages` is the flattened list of (platform, descriptor) units produced
by either the grouped-dict or the flat-list form of `task['packages']`
(platform `none` for the flat form). -/
structure Task where
  id : Nat
  keyid : Option String
  build_id : Option Nat
  sign_files : Bool
  packages : List (Option String × Pkg)
deriving Repr

/-- Which staging subdirectory `download_package` routes a descriptor to
(lines 120-126): `debs` for deb/dsc, `rpms` otherwise. -/
def pkgDirName (p : Pkg) : String :=
  if p.ptype = "deb" ∨ p.ptype = "dsc" then "debs" else "rpms"

def platformPart : Option String → String
  | none => ""
  | some s => s ++ "/"

/-- The local path `_download_package` stores a package at:
`<kind dir>/<platform>/<id>/<file name>` (the constant task-directory
prefix is omitted). -/
def pkgPath (platform : Option String) (p : Pkg) : String :=
  pkgDirName p ++ "/" ++ platformPart platform ++ toString p.id ++ "/" ++ p.fname

/-- Python dict assignment `d[k] = v`: replace in place if the key exists,
else append (insertion order preserved). -/
def dinsert {K V : Type} [DecidableEq K] (k : K) (v : V) :
    List (K × V) → List (K × V)
  | [] => [(k, v)]
  | (k', v') :: rest =>
    if k' = k then (k, v) :: rest else (k', v') :: dinsert k v rest

/-- Python dict lookup `d.get(k)`. -/
def dlookup {K V : Type} [DecidableEq K] (k : K) : List (K × V) → Option V
  | [] => none
  | (k', v') :: rest => if k' = k then some v' else dlookup k rest

/-- Python in-place value mutation `d[k][field] = ...` (no-op on a missing
key, which the pipeline never does). -/
def dmod {K V : Type} [DecidableEq K] (k : K) (f : V → V) :
    List (K × V) → List (K × V)
  | [] => []
  | (k', v') :: rest =>
    if k' = k then (k', f v') :: rest else (k', v') :: dmod k f rest

/-- One value of the `packages` response dict: the descriptor copy made at
lines 174-177 (`fingerprint` added, `download_url` popped) later extended
with `sha256`, `cas_hash` and `href`. -/
structure PkgEntry where
  id : Nat
  name : String
  file_name : Option String
  fingerprint : String
  cas_hash : Option String
  sha256 : Option String
  href : Option String
deriving DecidableEq, Repr

/-- The `response_payload` dict (stats omitted): `packages` is present only
when line 342 was reached. -/
structure Payload where
  build_id : Option Nat
  success : Bool
  error_message : Option String
  packages : Option (List PkgEntry)
deriving DecidableEq, Repr

/-- Observable actions of one `_sign_build` run: collaborator invocations,
the `_report_signed_build` call and the staging-directory removal. -/
inductive Ev
  | downloadEv (path : String)
  | verifyEv (path : String)
  | signRpmEv (paths : List String)
  | signDebEv (path : String)
  | signDscEv (path : String)
  | checkSigEv (paths : List String)
  | uploadEv (path : String)
  | reportEv (payload : Payload)
  | rmtreeEv
deriving DecidableEq, Repr

/-- The collaborators `BaseSigner` delegates to (child-class overrides and
module helpers): outcome oracles, plus the post-sign content hash
(`hash_file`), file size (`os.stat().st_size`) and on-disk RPM signature
observation for each path.  `upload` returns the collaborator's result
object: `none` models a falsy result without an `href`. -/
structure Env where
  download : Option String → Pkg → Except String Unit
  verify : String → Except String (Option String)
  notarize : String → String → Except String String
  sha256 : String → String
  fsize : String → Nat
  rpmFile : String → RpmFile
  signRpm : List String → Except String Unit
  signDeb : String → Except String Unit
  signDsc : String → Except String Unit
  upload : String → Nat → Option String → Nat → String → Except String (Option String)
  reportOk : Bool

/-- A pipeline step: emitted events plus a normal result or a raised
exception. -/
abbrev EStep (α : Type) : Type := List Ev × Except String α

def epure {α : Type} (a : α) : EStep α := ([], .ok a)

/-- Sequencing with exception propagation (events accumulate until the
first raise, which aborts the rest of the `try` block). -/
def ebind {α β : Type} (x : EStep α) (f : α → EStep β) : EStep β :=
  match x with
  | (evs, .error e) => (evs, .error e)
  | (evs, .ok a) =>
    let r := f a
    (evs ++ r.1, r.2)

/-- One element of the `downloaded` list:
`(package_id, file_name, package_path, platform)` (lines 129-134). -/
abbrev DownTup := Nat × String × String × Option String

def tupPath (t : DownTup) : String := t.2.2.1

/-- State accumulated by the fetch stage (lines 115-178):
`pkg_info_mapping`, the `packages` response dict, and `downloaded`. -/
structure DownloadState where
  pkg_info_mapping : List (String × Pkg)
  packages : List (Nat × PkgEntry)
  downloaded : List DownTup
deriving Repr

/-- The `signed_package` copy made for the response payload
(lines 174-177). -/
def initEntry (fingerprint : String) (p : Pkg) : PkgEntry :=
  { id := p.id, name := p.name, file_name := p.file_name,
    fingerprint := fingerprint, cas_hash := p.cas_hash,
    sha256 := none, href := none }

/-- The fetch stage: each unit downloads (worker side effects mapped in
completion order `order`), then the `as_completed` loop records the
payload copy and the `downloaded` tuple; the first raising future aborts
the stage (lines 151-178). -/
def downloadPhase (env : Env) (fingerprint : String) :
    List (Option String × Pkg) → DownloadState → EStep DownloadState
  | [], st => epure st
  | (platform, pkg) :: rest, st =>
    let path := pkgPath platform pkg
    match env.download platform pkg with
    | .error e => ([Ev.downloadEv path], .error e)
    | .ok _ =>
      let st2 : DownloadState :=
        { pkg_info_mapping := dinsert path pkg st.pkg_info_mapping
          packages := dinsert pkg.id (initEntry fingerprint pkg) st.packages
          downloaded := st.downloaded ++ [(pkg.id, pkg.fname, path, platform)] }
      let r := downloadPhase env fingerprint rest st2
      (Ev.downloadEv path :: r.1, r.2)

/-- The pure state fold computed by a fully successful fetch stage. -/
def downloadFold (fp : String) (l : List (Option String × Pkg))
    (st : DownloadState) : DownloadState :=
  l.foldl
    (fun st u =>
      { pkg_info_mapping := dinsert (pkgPath u.1 u.2) u.2 st.pkg_info_mapping
        packages := dinsert u.2.id (initEntry fp u.2) st.packages
        downloaded := st.downloaded ++ [(u.2.id, u.2.fname, pkgPath u.1 u.2, u.1)] })
    st

/-- The single-threaded verification loop (lines 179-188): for every
`pkg_info_mapping` entry with truthy `cas_hash` (when notarization is
enabled), call `verify_artifact`; a falsy verification raises `SignError`,
and successes accumulate `pkg_verification_mapping`. -/
def verifyPhase (env : Env) (notar : Bool) :
    List (String × Pkg) → List (String × String) → EStep (List (String × String))
  | [], acc => epure acc
  | (path, pkg) :: rest, acc =>
    if notar && optTruthy pkg.cas_hash then
      match env.verify path with
      | .error e => ([Ev.verifyEv path], .error e)
      | .ok none =>
        ([Ev.verifyEv path],
         .error ("SignError: Package " ++ pkg.name ++ " cannot be verified"))
      | .ok (some m) =>
        let r := verifyPhase env notar rest (dinsert path m acc)
        (Ev.verifyEv path :: r.1, r.2)
    else verifyPhase env notar rest acc

/-- Kernel-evaluable prefix test on strings (Lean's `String.startsWith`
is definitionally opaque). -/
def strStartsWith (s pre : String) : Bool := pre.toList.isPrefixOf s.toList

/-- Kernel-evaluable suffix test on strings. -/
def strEndsWith (s post : String) : Bool := post.toList.isSuffixOf s.toList

/-- `glob.glob(os.path.join(dir, '**/*' + suffix), recursive=True)` over
the staged files: the downloaded paths under `dir` with the given suffix,
each on-disk file once (scan order is filesystem-dependent). -/
def globFiles (dir suffix : String) (paths : List String) : List String :=
  (paths.filter (fun p => strStartsWith p dir && strEndsWith p suffix)).dedup

/-- The RPM signing stage: one `sign_rpm_package` invocation per batch,
a raise aborting the stage (lines 195-217). -/
def signBatchesPhase (env : Env) : List (List String) → EStep Unit
  | [] => epure ()
  | b :: rest =>
    match env.signRpm b with
    | .error e => ([Ev.signRpmEv b], .error e)
    | .ok _ =>
      let r := signBatchesPhase env rest
      (Ev.signRpmEv b :: r.1, r.2)

/-- The per-file deb/dsc signing loops (lines 218-237). -/
def signEachPhase (mkEv : String → Ev) (sign : String → Except String Unit) :
    List String → EStep Unit
  | [] => epure ()
  | p :: rest =>
    match sign p with
    | .error e => ([mkEv p], .error e)
    | .ok _ =>
      let r := signEachPhase mkEv sign rest
      (mkEv p :: r.1, r.2)

/-- State of the dedup/upload-planning loop (lines 246-279). -/
structure PlanState where
  files_to_upload : List String
  parallel_upload_files : List (String × DownTup)
  sequential_upload_files : List (String × DownTup)
  files_to_check : List String
  packages : List (Nat × PkgEntry)
deriving Repr

def listInfixOf (needle : List Char) : List Char → Bool
  | [] => needle.isEmpty
  | c :: rest => needle.isPrefixOf (c :: rest) || listInfixOf needle rest

/-- Python's substring test `needle in hay`. -/
def strContains (hay needle : String) : Bool :=
  listInfixOf needle.toList hay.toList

/-- The routing criterion of lines 258-262: parallel iff the feature flag
is on and the file size is at most the configured threshold. -/
def parallelEligible (cfg : Config) (env : Env) (path : String) : Bool :=
  cfg.parallel_upload && decide (env.fsize path ≤ cfg.parallel_upload_file_size)

/-- The notarization + dedup/planning loop over `downloaded`
(lines 251-279): re-notarize verified artifacts, hash each file, queue
first-seen hashes into exactly one of the two upload dicts, remember
first-seen paths containing `.rpm` for the audit, and record `sha256` in
the response entry of every package. -/
def planPhase (cfg : Config) (env : Env) (notar : Bool)
    (verifMap : List (String × String)) :
    List DownTup → PlanState → Except String PlanState
  | [], st => .ok st
  | (pid, fname, path, platform) :: rest, st =>
    let notarStep : Except String (List (Nat × PkgEntry)) :=
      match dlookup path verifMap with
      | some m =>
        if notar then
          match env.notarize path m with
          | .error e => .error e
          | .ok cas =>
            .ok (dmod pid (fun en => { en with cas_hash := some cas }) st.packages)
        else .ok st.packages
      | none => .ok st.packages
    match notarStep with
    | .error e => .error e
    | .ok pkgs1 =>
      let sha := env.sha256 path
      let st2 : PlanState :=
        if sha ∈ st.files_to_upload then
          { st with packages := pkgs1 }
        else
          { files_to_upload := st.files_to_upload ++ [sha]
            parallel_upload_files :=
              if parallelEligible cfg env path then
                dinsert sha (pid, fname, path, platform) st.parallel_upload_files
              else st.parallel_upload_files
            sequential_upload_files :=
              if parallelEligible cfg env path then st.sequential_upload_files
              else dinsert sha (pid, fname, path, platform) st.sequential_upload_files
            files_to_check :=
              if strContains path ".rpm" then st.files_to_check ++ [path]
              else st.files_to_check
            packages := pkgs1 }
      planPhase cfg env notar verifMap rest
        { st2 with
            packages := dmod pid (fun en => { en with sha256 := some sha }) st2.packages }

/-- `packages[package_id].get('name')` (line 316): the response entry's
name for a package id. -/
def pkgNameOf (pkgs : List (Nat × PkgEntry)) (pid : Nat) : String :=
  ((dlookup pid pkgs).map PkgEntry.name).getD ""

/-- The parallel upload loop (lines 301-318), consumed in `as_completed`
order: each result's `href` is written to the package's response entry and
to `packages_hrefs` under the package's `name`; a falsy result raises
(`result.href` on `None`). -/
def parallelUploadPhase (env : Env) (taskId : Nat) :
    List (String × DownTup) → List (Nat × PkgEntry) → List (String × String) →
    EStep (List (Nat × PkgEntry) × List (String × String))
  | [], pkgs, hrefs => epure (pkgs, hrefs)
  | (_, (pid, fname, path, platform)) :: rest, pkgs, hrefs =>
    match env.upload path taskId platform pid fname with
    | .error e => ([Ev.uploadEv path], .error e)
    | .ok none =>
      ([Ev.uploadEv path], .error "AttributeError: NoneType has no attribute href")
    | .ok (some h) =>
      let package_name := pkgNameOf pkgs pid
      let r := parallelUploadPhase env taskId rest
        (dmod pid (fun en => { en with href := some h }) pkgs)
        (dinsert package_name h hrefs)
      (Ev.uploadEv path :: r.1, r.2)

/-- The sequential upload loop (lines 319-334): a falsy result is skipped;
a truthy one records `href` in the response entry and in `packages_hrefs`
under the uploaded `file_name`. -/
def sequentialUploadPhase (env : Env) (taskId : Nat) :
    List (String × DownTup) → List (Nat × PkgEntry) → List (String × String) →
    EStep (List (Nat × PkgEntry) × List (String × String))
  | [], pkgs, hrefs => epure (pkgs, hrefs)
  | (_, (pid, fname, path, platform)) :: rest, pkgs, hrefs =>
    match env.upload path taskId platform pid fname with
    | .error e => ([Ev.uploadEv path], .error e)
    | .ok none =>
      let r := sequentialUploadPhase env taskId rest pkgs hrefs
      (Ev.uploadEv path :: r.1, r.2)
    | .ok (some h) =>
      let r := sequentialUploadPhase env taskId rest
        (dmod pid (fun en => { en with href := some h }) pkgs)
        (dinsert fname h hrefs)
      (Ev.uploadEv path :: r.1, r.2)

/-- The href backfill of lines 335-341, run only when `parallel_upload` is
enabled: every entry with a falsy `href` receives
`packages_hrefs[package.get('name')]`, a missing key raising `KeyError`. -/
def fillHrefs (hrefs : List (String × String)) :
    List (Nat × PkgEntry) → Except String (List (Nat × PkgEntry))
  | [] => .ok []
  | (pid, en) :: rest =>
    if optTruthy en.href then
      match fillHrefs hrefs rest with
      | .error e => .error e
      | .ok tl => .ok ((pid, en) :: tl)
    else
      match dlookup en.name hrefs with
      | none => .error ("KeyError: " ++ en.name)
      | some h =>
        match fillHrefs hrefs rest with
        | .error e => .error e
        | .ok tl => .ok ((pid, { en with href := some h }) :: tl)

/-- The `try` block of `_sign_build` (lines 151-347), from fetch to the
success payload.  `order` is the fetch pool's completion order of the
task's (platform, package) units; `upOrder` is the completion order of the
parallel upload pool. -/
def bodyRun (cfg : Config) (env : Env) (notar : Bool) (info : KeyInfo)
    (task : Task) (order : List (Option String × Pkg))
    (upOrder : List (String × DownTup) → List (String × DownTup))
    (keyid : String) : EStep Payload :=
  ebind (downloadPhase env info.fingerprint order ⟨[], [], []⟩) fun dst =>
  ebind (verifyPhase env notar dst.pkg_info_mapping []) fun verifMap =>
  let allPaths := dst.downloaded.map tupPath
  ebind (signBatchesPhase env (rpmSignBatches (globFiles "rpms/" ".rpm" allPaths))) fun _ =>
  ebind (signEachPhase Ev.signDebEv env.signDeb (globFiles "debs/" ".deb" allPaths)) fun _ =>
  ebind (signEachPhase Ev.signDscEv env.signDsc (globFiles "debs/" ".dsc" allPaths)) fun _ =>
  ebind ([], planPhase cfg env notar verifMap dst.downloaded ⟨[], [], [], [], dst.packages⟩) fun pst =>
  let sign_errors := check_signature keyid info.subkeys env.rpmFile pst.files_to_check
  ebind ([Ev.checkSigEv pst.files_to_check],
    if sign_errors ≠ [] then
      .error ("SignError: Errors during checking packages signatures: \n"
        ++ String.intercalate "\n" sign_errors)
    else .ok ()) fun _ =>
  ebind (parallelUploadPhase env task.id (upOrder pst.parallel_upload_files) pst.packages []) fun pr =>
  ebind (sequentialUploadPhase env task.id pst.sequential_upload_files pr.1 pr.2) fun sr =>
  ebind ([], if cfg.parallel_upload then fillHrefs sr.2 sr.1 else .ok sr.1) fun pkgsFinal =>
  epure { build_id := task.build_id, success := true, error_message := none,
          packages := some (pkgsFinal.map Prod.snd) }

/-- Outcome of one `_sign_build` call: the event trace, whether an
exception escaped the method (`outcome`), and whether the staging
directory still exists afterwards. -/
structure RunResult where
  events : List Ev
  outcome : Except String Payload
  dirExists : Bool
deriving Repr

/-- The failure payload built by the `except` clause (lines 348-351). -/
def failPayload (task : Task) (e : String) : Payload :=
  { build_id := task.build_id, success := false, error_message := some e,
    packages := none }

/-- `BaseSigner._sign_build` (lines 105-361).  The key-id resolution of
lines 137-142 runs before the `try` block, so its errors escape with
nothing reported and nothing cleaned up.  Inside the protected region any
exception is converted into a failure payload; the `finally` clause
reports, then removes the staging directory — unless the report itself
raises, in which case the removal is skipped and the exception escapes.
The staging directory exists once any download unit ran (`safe_mkdir`
precedes the first attempt). -/
def sign_build (cfg : Config) (keyIds : String → Option KeyInfo) (notar : Bool)
    (env : Env) (task : Task) (order : List (Option String × Pkg))
    (upOrder : List (String × DownTup) → List (String × DownTup)) : RunResult :=
  match task.keyid with
  | none =>
    { events := [], outcome := .error "SignError: No pgp keyid", dirExists := false }
  | some keyid =>
    match keyIds keyid with
    | none =>
      { events := [], outcome := .error ("KeyError: " ++ keyid), dirExists := false }
    | some info =>
      let br := bodyRun cfg env notar info task order upOrder keyid
      let payload :=
        match br.2 with
        | .ok p => p
        | .error e => failPayload task e
      let dirCreated := !order.isEmpty
      if env.reportOk then
        { events := br.1 ++ [Ev.reportEv payload]
            ++ (if dirCreated then [Ev.rmtreeEv] else [])
          outcome := .ok payload
          dirExists := false }
      else
        { events := br.1 ++ [Ev.reportEv payload]
          outcome := .error "report failed"
          dirExists := dirCreated }

/-- The sub-list of first occurrences of each content hash in `downloaded`
(`seen` are the hashes already taken), paired with their hashes: the
reference characterization of what lines 256-278 queue. -/
def firstOccurrences (env : Env) : List DownTup → List String → List (String × DownTup)
  | [], _ => []
  | t :: rest, seen =>
    let s := env.sha256 (tupPath t)
    if s ∈ seen then firstOccurrences env rest seen
    else (s, t) :: firstOccurrences env rest (seen ++ [s])

/-- Payloads passed to `_report_signed_build` during a run. -/
def reportedPayloads (r : RunResult) : List Payload :=
  r.events.filterMap (fun ev => match ev with | .reportEv p => some p | _ => none)

/-- Paths passed to `_upload_artifact` during a run. -/
def uploadPaths (evs : List Ev) : List String :=
  evs.filterMap (fun ev => match ev with | .uploadEv p => some p | _ => none)

/-- Whether an event is an invocation of one of the three signing
helpers. -/
def isSignEv : Ev → Bool
  | .signRpmEv _ => true
  | .signDebEv _ => true
  | .signDscEv _ => true
  | _ => false

/-! Concrete fixtures used by witnesses and counterexamples. -/

def exInfo : KeyInfo := ⟨"pw", "fp", ["SUB"]⟩

def exKeyIds : String → Option KeyInfo :=
  fun k => if k = "KEY" then some exInfo else none

def exCfg : Config := ⟨false, 52428800⟩

def exCfgPar : Config := ⟨true, 52428800⟩

def exPkgA : Pkg := ⟨1, "a", none, none, none⟩

def exPkgB : Pkg := ⟨2, "b", none, none, none⟩

def exTask : Task := ⟨7, some "KEY", some 99, false, [(none, exPkgA), (none, exPkgB)]⟩

/-- A fully successful collaborator environment: every download, signing
and upload succeeds, every file hashes to `"h"`, weighs 10 bytes and is
signed by `key`. -/
def exEnv : Env where
  download := fun _ _ => .ok ()
  verify := fun _ => .ok (some "m")
  notarize := fun _ _ => .ok "cas"
  sha256 := fun _ => "h"
  fsize := fun _ => 10
  rpmFile := fun _ => .signed ["key"]
  signRpm := fun _ => .ok ()
  signDeb := fun _ => .ok ()
  signDsc := fun _ => .ok ()
  upload := fun p _ _ _ _ => .ok (some ("H:" ++ p))
  reportOk := true

def exCasA : Pkg := ⟨1, "a", none, none, some "ca"⟩

def exCasB : Pkg := ⟨2, "b", none, none, some "cb"⟩

def exCasC : Pkg := ⟨3, "c", none, none, some "cc"⟩

def exTaskCas : Task :=
  ⟨7, some "KEY", some 99, false, [(none, exCasA), (none, exCasB), (none, exCasC)]⟩

/-- Like `exEnv`, but the verification collaborator returns a falsy result
for the second artifact. -/
def exEnvVerFail : Env :=
  { exEnv with verify := fun p => if p = "rpms/2/b" then .ok none else .ok (some "m") }

/-- Like `exEnv`, but with one big file and one duplicated content hash:
`rpms/2/bigb` is oversized and hashes to `h2`; everything else hashes to
`h1`. -/
def exEnvSizes : Env :=
  { exEnv with
      fsize := fun p => if p = "rpms/2/bigb" then 999999999 else 10
      sha256 := fun p => if p = "rpms/2/bigb" then "h2" else "h1" }

/-- Three downloaded tuples: an RPM, an oversized non-RPM file, and a
byte-identical duplicate of the first. -/
def exPlanTups : List DownTup :=
  [(1, "a.rpm", "rpms/1/a.rpm", none),
   (2, "bigb", "rpms/2/bigb", none),
   (3, "dup.rpm", "rpms/3/dup.rpm", none)]

/-- A second descriptor carrying the same artifact name as `exPkgA`. -/
def exPkgA2 : Pkg := ⟨2, "a", none, none, none⟩

/-- A task shipping two descriptors of one and the same artifact. -/
def exTaskC1 : Task :=
  ⟨7, some "KEY", some 99, false, [(none, exPkgA), (none, exPkgA2)]⟩

theorem checkLoop_success (k : String) (sub : List String) :
    ∀ (l : List String) (sig0 : String) (s : String), s ∈ l →
      (strLower s = k ∨ strLower s ∈ sub) →
      checkLoop k sub l sig0 = (.SUCCESS, "") := by
  intro l
  induction l with
  | nil => intro sig0 s hs _; cases hs
  | cons a rest ih =>
    intro sig0 s hs hmatch
    by_cases h1 : strLower a = k
    · simp [checkLoop, h1]
    · by_cases h2 : strLower a ∈ sub
      · have hne : sub ≠ [] := List.ne_nil_of_mem h2
        simp [checkLoop, h1, hne, h2]
      · rcases List.mem_cons.mp hs with rfl | hmem
        · rcases hmatch with h | h
          · exact absurd h h1
          · exact absurd h h2
        · have hno : ¬(sub ≠ [] ∧ strLower a ∈ sub) := fun hc => h2 hc.2
          simp only [checkLoop, if_neg h1, if_neg hno]
          exact ih (strLower a) s hmem hmatch

theorem checkLoop_fail (k : String) (sub : List String) :
    ∀ (l : List String) (sig0 : String),
      (∀ s ∈ l, ¬(strLower s = k ∨ strLower s ∈ sub)) →
      checkLoop k sub l sig0
        = (.WRONG_SIGNATURE, l.foldl (fun _ s => strLower s) sig0) := by
  intro l
  induction l with
  | nil => intro sig0 _; rfl
  | cons a rest ih =>
    intro sig0 h
    have ha := h a (List.mem_cons_self a rest)
    have h1 : ¬strLower a = k := fun hc => ha (Or.inl hc)
    have h2 : ¬(sub ≠ [] ∧ strLower a ∈ sub) := fun hc => ha (Or.inr hc.2)
    simp only [checkLoop, if_neg h1, if_neg h2, List.foldl_cons]
    exact ih (strLower a) (fun s hs => h s (List.mem_cons_of_mem a hs))

theorem foldl_toLower_getLast (l : List String) :
    ∀ a : String,
      l.foldl (fun _ s => strLower s) a = ((l.getLast?).map strLower).getD a := by
  induction l with
  | nil => intro a; rfl
  | cons s rest ih =>
    intro a
    cases rest with
    | nil => simp [List.getLast?]
    | cons t ts =>
      rw [List.foldl_cons, ih (strLower s), List.getLast?_cons_cons]
      have hsm : (t :: ts).getLast?.isSome := by simp
      obtain ⟨x, hx⟩ := Option.isSome_iff_exists.mp hsm
      simp [hx]

/-- C5: for every audited RPM path, `check` classifies it as read-error
when the file is unreadable/missing, no-signature when the header carries
no signature field, success when some embedded signature's signer equals
the key id or one of its configured subkey ids case-insensitively, and
wrong-signature otherwise, with the observed (last examined, lowered)
signer recorded in the error message built by `_check_signature`. -/
theorem C5_audit_classification (keyId : String) (subkeys : List String) :
    check keyId subkeys .unreadable = (.READ_ERROR, "") ∧
    check keyId subkeys .noSignature = (.NO_SIGNATURE, "") ∧
    ∀ signers : List String,
      ((∃ s ∈ signers, authorized keyId subkeys s) →
        check keyId subkeys (.signed signers) = (.SUCCESS, "")) ∧
      ((∀ s ∈ signers, ¬authorized keyId subkeys s) →
        check keyId subkeys (.signed signers)
          = (.WRONG_SIGNATURE, ((signers.getLast?).map strLower).getD "") ∧
        ∀ p : String,
          check_signature keyId subkeys (fun _ => .signed signers) [p]
            = ["Package " ++ p ++ " is signed with the wrong key: "
                ++ ((signers.getLast?).map strLower).getD ""]) := by
  refine ⟨rfl, rfl, fun signers => ⟨?_, ?_⟩⟩
  · rintro ⟨s, hs, hmatch⟩
    exact checkLoop_success (strLower keyId) (subkeys.map strLower) signers "" s hs hmatch
  · intro hall
    have hfail := checkLoop_fail (strLower keyId) (subkeys.map strLower) signers ""
      (fun s hs => hall s hs)
    have hclass : check keyId subkeys (.signed signers)
        = (.WRONG_SIGNATURE, ((signers.getLast?).map strLower).getD "") := by
      show checkLoop (strLower keyId) (subkeys.map strLower) signers "" = _
      rw [hfail, foldl_toLower_getLast]
    refine ⟨hclass, fun p => ?_⟩
    simp [check_signature, hclass]

/-- Witness for C5 at concrete inputs. -/
theorem C5_audit_classification_w :
    check "AbC" ["K2"] (.signed ["xx", "aBc"]) = (.SUCCESS, "") ∧
    check "AbC" ["K2"] (.signed ["zz"]) = (.WRONG_SIGNATURE, "zz") := by
  constructor
  · exact ((C5_audit_classification "AbC" ["K2"]).2.2 ["xx", "aBc"]).1 (by decide)
  · exact (((C5_audit_classification "AbC" ["K2"]).2.2 ["zz"]).2 (by decide)).1

theorem signRpmLoopGo_bound :
    ∀ (l : List String) (batches : List (List String)) (acc : List String),
      (∀ b ∈ batches, b ≠ [] ∧ b.length ≤ 50) → acc.length < 50 →
      (∀ b ∈ (signRpmLoopGo batches acc l).1, b ≠ [] ∧ b.length ≤ 50) ∧
        (signRpmLoopGo batches acc l).2.length < 50 := by
  intro l
  induction l with
  | nil => intro batches acc hb ha; exact ⟨hb, ha⟩
  | cons p rest ih =>
    intro batches acc hb ha
    simp only [signRpmLoopGo]
    have hlen : (acc ++ [p]).length = acc.length + 1 := by simp
    by_cases hmod : (acc ++ [p]).length % 50 = 0
    · rw [if_pos hmod]
      apply ih
      · intro b hbmem
        rcases List.mem_append.mp hbmem with h | h
        · exact hb b h
        · rcases List.mem_singleton.mp h with rfl
          refine ⟨by simp, ?_⟩
          rw [hlen] at hmod ⊢
          omega
      · decide
    · rw [if_neg hmod]
      apply ih _ _ hb
      rw [hlen] at hmod ⊢
      omega

theorem signRpmLoopGo_lengths :
    ∀ (l l' : List String) (batches batches' : List (List String))
      (acc acc' : List String),
      l.length = l'.length → acc.length = acc'.length →
      batches.map List.length = batches'.map List.length →
      (signRpmLoopGo batches acc l).1.map List.length
          = (signRpmLoopGo batches' acc' l').1.map List.length ∧
        (signRpmLoopGo batches acc l).2.length
          = (signRpmLoopGo batches' acc' l').2.length := by
  intro l
  induction l with
  | nil =>
    intro l' batches batches' acc acc' hl ha hb
    cases l' with
    | nil => exact ⟨hb, ha⟩
    | cons => simp at hl
  | cons p rest ih =>
    intro l' batches batches' acc acc' hl ha hb
    cases l' with
    | nil => simp at hl
    | cons p' rest' =>
      simp only [signRpmLoopGo]
      have hlen2 : (acc ++ [p]).length = (acc' ++ [p']).length := by simp [ha]
      by_cases hmod : (acc ++ [p]).length % 50 = 0
      · rw [if_pos hmod, if_pos (by rw [← hlen2]; exact hmod)]
        apply ih
        · simpa using hl
        · rfl
        · simp only [List.map_append, List.map_cons, List.map_nil, hb, hlen2]
      · rw [if_neg hmod, if_neg (fun hc => hmod (by rw [hlen2]; exact hc))]
        exact ih rest' batches batches' _ _ (by simpa using hl) hlen2 hb

theorem rpmSignBatches_lengths (files files' : List String)
    (h : files.length = files'.length) :
    (rpmSignBatches files).map List.length
      = (rpmSignBatches files').map List.length := by
  have key := signRpmLoopGo_lengths files files' [] [] [] [] h rfl rfl
  unfold rpmSignBatches
  by_cases hnil : (signRpmLoopGo [] [] files).2 = []
  · have hnil' : (signRpmLoopGo [] [] files').2 = [] := by
      apply List.eq_nil_of_length_eq_zero
      rw [← key.2, hnil]
      rfl
    rw [if_neg (fun hc => hc hnil), if_neg (fun hc => hc hnil')]
    exact key.1
  · have hnil' : (signRpmLoopGo [] [] files').2 ≠ [] := by
      intro hc
      apply hnil
      apply List.eq_nil_of_length_eq_zero
      rw [key.2, hc]
      rfl
    rw [if_pos hnil, if_pos hnil']
    simp only [List.map_append, List.map_cons, List.map_nil, key.1, key.2]

/-- C6: RPM artifacts are signed in batches of at most 50 paths per
`sign_rpm_package` invocation (every batch is also nonempty), and a task
with 130 globbed RPM files produces exactly 3 invocations of sizes 50, 50
and 30. -/
theorem C6_rpm_batching (files : List String) :
    (∀ b ∈ rpmSignBatches files, b ≠ [] ∧ b.length ≤ 50) ∧
    (files.length = 130 →
      (rpmSignBatches files).map List.length = [50, 50, 30]) := by
  constructor
  · intro b hb
    have h := signRpmLoopGo_bound files [] [] (by simp) (by norm_num)
    unfold rpmSignBatches at hb
    by_cases hnil : (signRpmLoopGo [] [] files).2 = []
    · rw [if_neg (fun hc => hc hnil)] at hb
      exact h.1 b hb
    · rw [if_pos hnil] at hb
      rcases List.mem_append.mp hb with hmem | hmem
      · exact h.1 b hmem
      · rcases List.mem_singleton.mp hmem with rfl
        exact ⟨hnil, Nat.le_of_lt h.2⟩
  · intro h130
    have htr := rpmSignBatches_lengths files (List.replicate 130 "")
      (by simp [h130])
    rw [htr]
    decide

/-- Witness for C6 at concrete inputs. -/
theorem C6_rpm_batching_w :
    (rpmSignBatches (List.replicate 130 "p")).map List.length = [50, 50, 30] ∧
    (["q"] ≠ [] ∧ (["q"] : List String).length ≤ 50) := by
  constructor
  · exact (C6_rpm_batching (List.replicate 130 "p")).2 (by simp)
  · exact (C6_rpm_batching ["q"]).1 ["q"] (by decide)

theorem downloadGo_att_le (att : Nat → Except String Unit) (p : String) :
    ∀ (rem i : Nat) (last : Option String),
      (downloadGo att p rem i last).1 ≤ rem := by
  intro rem
  induction rem with
  | zero => intro i last; exact Nat.le_refl 0
  | succ n ih =>
    intro i last
    simp only [downloadGo]
    cases h : att i with
    | ok _ => simp [h]
    | error e =>
      simp only [h]
      have := ih (i + 1) (some e)
      omega

/-- C8: for every package, its download is attempted at most `tryCount = 3`
times; if all three attempts raise a transport error the last attempt's
error is re-raised; and a first success at attempt `k` returns the
downloaded path after exactly `k` attempts. -/
theorem C8_download_retry (att : Nat → Except String Unit) (p e1 e2 e3 : String) :
    (download_package att p 3).1 ≤ 3 ∧
    (att 1 = .error e1 → att 2 = .error e2 → att 3 = .error e3 →
      download_package att p 3 = (3, .error (some e3))) ∧
    (∀ k, 1 ≤ k → k ≤ 3 →
      (∀ j, 1 ≤ j → j < k → ∃ ej, att j = .error ej) →
      att k = .ok () →
      download_package att p 3 = (k, .ok p)) := by
  refine ⟨downloadGo_att_le att p 3 1 none, ?_, ?_⟩
  · intro h1 h2 h3
    simp [download_package, downloadGo, h1, h2, h3]
  · intro k hk1 hk3 hprev hk
    interval_cases k
    · simp [download_package, downloadGo, hk]
    · obtain ⟨f1, hf1⟩ := hprev 1 (by omega) (by omega)
      simp [download_package, downloadGo, hf1, hk]
    · obtain ⟨f1, hf1⟩ := hprev 1 (by omega) (by omega)
      obtain ⟨f2, hf2⟩ := hprev 2 (by omega) (by omega)
      simp [download_package, downloadGo, hf1, hf2, hk]

theorem ebind_ok {α β : Type} (x : EStep α) (f : α → EStep β) (b : β) :
    (ebind x f).2 = .ok b ↔ ∃ a, x.2 = .ok a ∧ (f a).2 = .ok b := by
  obtain ⟨evs, r⟩ := x
  cases r with
  | error e => simp [ebind]
  | ok a => simp [ebind]

theorem ebind_eq_ok {α β : Type} (x : EStep α) (f : α → EStep β) (a : α)
    (hx : x.2 = .ok a) : ebind x f = (x.1 ++ (f a).1, (f a).2) := by
  obtain ⟨evs, r⟩ := x
  cases r with
  | error e => simp at hx
  | ok a' =>
    obtain rfl : a' = a := by simpa using hx
    rfl

theorem ebind_eq_error {α β : Type} (x : EStep α) (f : α → EStep β) (e : String)
    (hx : x.2 = .error e) : ebind x f = (x.1, .error e) := by
  obtain ⟨evs, r⟩ := x
  cases r with
  | error e' =>
    obtain rfl : e' = e := by simpa using hx
    rfl
  | ok a => simp at hx

theorem ebind_events_mem {α β : Type} (x : EStep α) (f : α → EStep β) (ev : Ev)
    (h : ev ∈ (ebind x f).1) :
    ev ∈ x.1 ∨ ∃ a, x.2 = .ok a ∧ ev ∈ (f a).1 := by
  obtain ⟨evs, r⟩ := x
  cases r with
  | error e => exact Or.inl h
  | ok a =>
    rcases List.mem_append.mp h with h1 | h2
    · exact Or.inl h1
    · exact Or.inr ⟨a, rfl, h2⟩

theorem downloadPhase_events_kind (env : Env) (fp : String) :
    ∀ (l : List (Option String × Pkg)) (st : DownloadState),
      ∀ ev ∈ (downloadPhase env fp l st).1, ∃ pth, ev = Ev.downloadEv pth := by
  intro l
  induction l with
  | nil => intro st ev hev; simp [downloadPhase, epure] at hev
  | cons u rest ih =>
    intro st ev hev
    obtain ⟨platform, pkg⟩ := u
    cases hdl : env.download platform pkg with
    | error e =>
      simp only [downloadPhase, hdl] at hev
      exact ⟨_, List.mem_singleton.mp hev⟩
    | ok _ =>
      simp only [downloadPhase, hdl] at hev
      rcases List.mem_cons.mp hev with rfl | hmem
      · exact ⟨_, rfl⟩
      · exact ih _ ev hmem

theorem verifyPhase_events_kind (env : Env) (notar : Bool) :
    ∀ (m : List (String × Pkg)) (acc : List (String × String)),
      ∀ ev ∈ (verifyPhase env notar m acc).1, ∃ pth, ev = Ev.verifyEv pth := by
  intro m
  induction m with
  | nil => intro acc ev hev; simp [verifyPhase, epure] at hev
  | cons u rest ih =>
    intro acc ev hev
    obtain ⟨path, pkg⟩ := u
    by_cases hc : (notar && optTruthy pkg.cas_hash) = true
    · cases hv : env.verify path with
      | error e =>
        simp only [verifyPhase, hc, if_true, hv] at hev
        exact ⟨_, List.mem_singleton.mp hev⟩
      | ok o =>
        cases o with
        | none =>
          simp only [verifyPhase, hc, if_true, hv] at hev
          exact ⟨_, List.mem_singleton.mp hev⟩
        | some s =>
          simp only [verifyPhase, hc, if_true, hv] at hev
          rcases List.mem_cons.mp hev with rfl | hmem
          · exact ⟨_, rfl⟩
          · exact ih _ ev hmem
    · simp only [verifyPhase, hc, if_false] at hev
      exact ih _ ev hev

theorem signBatchesPhase_events_kind (env : Env) :
    ∀ (bs : List (List String)),
      ∀ ev ∈ (signBatchesPhase env bs).1, ∃ ps, ev = Ev.signRpmEv ps := by
  intro bs
  induction bs with
  | nil => intro ev hev; simp [signBatchesPhase, epure] at hev
  | cons b rest ih =>
    intro ev hev
    cases hs : env.signRpm b with
    | error e =>
      simp only [signBatchesPhase, hs] at hev
      exact ⟨_, List.mem_singleton.mp hev⟩
    | ok _ =>
      simp only [signBatchesPhase, hs] at hev
      rcases List.mem_cons.mp hev with rfl | hmem
      · exact ⟨_, rfl⟩
      · exact ih ev hmem

theorem signEachPhase_events_kind (mkEv : String → Ev)
    (sign : String → Except String Unit) :
    ∀ (l : List String),
      ∀ ev ∈ (signEachPhase mkEv sign l).1, ∃ pth, ev = mkEv pth := by
  intro l
  induction l with
  | nil => intro ev hev; simp [signEachPhase, epure] at hev
  | cons p rest ih =>
    intro ev hev
    cases hs : sign p with
    | error e =>
      simp only [signEachPhase, hs] at hev
      exact ⟨_, List.mem_singleton.mp hev⟩
    | ok _ =>
      simp only [signEachPhase, hs] at hev
      rcases List.mem_cons.mp hev with rfl | hmem
      · exact ⟨_, rfl⟩
      · exact ih ev hmem

theorem parallelUploadPhase_events_kind (env : Env) (taskId : Nat) :
    ∀ (l : List (String × DownTup)) (pkgs : List (Nat × PkgEntry))
      (hrefs : List (String × String)),
      ∀ ev ∈ (parallelUploadPhase env taskId l pkgs hrefs).1,
        ∃ pth, ev = Ev.uploadEv pth := by
  intro l
  induction l with
  | nil => intro pkgs hrefs ev hev; simp [parallelUploadPhase, epure] at hev
  | cons u rest ih =>
    intro pkgs hrefs ev hev
    obtain ⟨sha, pid, fname, path, platform⟩ := u
    cases hu : env.upload path taskId platform pid fname with
    | error e =>
      simp only [parallelUploadPhase, hu] at hev
      exact ⟨_, List.mem_singleton.mp hev⟩
    | ok o =>
      cases o with
      | none =>
        simp only [parallelUploadPhase, hu] at hev
        exact ⟨_, List.mem_singleton.mp hev⟩
      | some h =>
        simp only [parallelUploadPhase, hu] at hev
        rcases List.mem_cons.mp hev with rfl | hmem
        · exact ⟨_, rfl⟩
        · exact ih _ _ ev hmem

theorem sequentialUploadPhase_events_kind (env : Env) (taskId : Nat) :
    ∀ (l : List (String × DownTup)) (pkgs : List (Nat × PkgEntry))
      (hrefs : List (String × String)),
      ∀ ev ∈ (sequentialUploadPhase env taskId l pkgs hrefs).1,
        ∃ pth, ev = Ev.uploadEv pth := by
  intro l
  induction l with
  | nil => intro pkgs hrefs ev hev; simp [sequentialUploadPhase, epure] at hev
  | cons u rest ih =>
    intro pkgs hrefs ev hev
    obtain ⟨sha, pid, fname, path, platform⟩ := u
    cases hu : env.upload path taskId platform pid fname with
    | error e =>
      simp only [sequentialUploadPhase, hu] at hev
      exact ⟨_, List.mem_singleton.mp hev⟩
    | ok o =>
      cases o with
      | none =>
        simp only [sequentialUploadPhase, hu] at hev
        rcases List.mem_cons.mp hev with rfl | hmem
        · exact ⟨_, rfl⟩
        · exact ih _ _ ev hmem
      | some h =>
        simp only [sequentialUploadPhase, hu] at hev
        rcases List.mem_cons.mp hev with rfl | hmem
        · exact ⟨_, rfl⟩
        · exact ih _ _ ev hmem

/-- No event of the `try`-block body is a report (reporting happens only in
the `finally` clause). -/
theorem bodyRun_no_report (cfg : Config) (env : Env) (notar : Bool)
    (info : KeyInfo) (task : Task) (order : List (Option String × Pkg))
    (upOrder : List (String × DownTup) → List (String × DownTup))
    (keyid : String) :
    ∀ ev ∈ (bodyRun cfg env notar info task order upOrder keyid).1,
      ∀ q : Payload, ev ≠ Ev.reportEv q := by
  intro ev hev q
  unfold bodyRun at hev
  rcases ebind_events_mem _ _ _ hev with h | ⟨dst, -, h⟩
  · obtain ⟨pth, rfl⟩ := downloadPhase_events_kind env info.fingerprint order _ ev h
    simp
  rcases ebind_events_mem _ _ _ h with h | ⟨vm, -, h⟩
  · obtain ⟨pth, rfl⟩ := verifyPhase_events_kind env notar _ _ ev h
    simp
  rcases ebind_events_mem _ _ _ h with h | ⟨u1, -, h⟩
  · obtain ⟨ps, rfl⟩ := signBatchesPhase_events_kind env _ ev h
    simp
  rcases ebind_events_mem _ _ _ h with h | ⟨u2, -, h⟩
  · obtain ⟨pth, rfl⟩ := signEachPhase_events_kind Ev.signDebEv env.signDeb _ ev h
    simp
  rcases ebind_events_mem _ _ _ h with h | ⟨u3, -, h⟩
  · obtain ⟨pth, rfl⟩ := signEachPhase_events_kind Ev.signDscEv env.signDsc _ ev h
    simp
  rcases ebind_events_mem _ _ _ h with h | ⟨pst, -, h⟩
  · simp at h
  rcases ebind_events_mem _ _ _ h with h | ⟨u4, -, h⟩
  · obtain rfl := List.mem_singleton.mp h
    simp
  rcases ebind_events_mem _ _ _ h with h | ⟨pr, -, h⟩
  · obtain ⟨pth, rfl⟩ := parallelUploadPhase_events_kind env task.id _ _ _ ev h
    simp
  rcases ebind_events_mem _ _ _ h with h | ⟨sr, -, h⟩
  · obtain ⟨pth, rfl⟩ := sequentialUploadPhase_events_kind env task.id _ _ _ ev h
    simp
  rcases ebind_events_mem _ _ _ h with h | ⟨fin, -, h⟩
  · simp at h
  · simp [epure] at h

/-- A payload returned normally by the `try` block is the success payload
built at line 342: `success=True`, no error message, packages present. -/
theorem bodyRun_ok_fields (cfg : Config) (env : Env) (notar : Bool)
    (info : KeyInfo) (task : Task) (order : List (Option String × Pkg))
    (upOrder : List (String × DownTup) → List (String × DownTup))
    (keyid : String) (p : Payload)
    (hp : (bodyRun cfg env notar info task order upOrder keyid).2 = .ok p) :
    p.success = true ∧ p.error_message = none ∧ p.packages.isSome = true ∧
      p.build_id = task.build_id := by
  unfold bodyRun at hp
  obtain ⟨dst, -, hp⟩ := (ebind_ok _ _ _).mp hp
  obtain ⟨vm, -, hp⟩ := (ebind_ok _ _ _).mp hp
  obtain ⟨u1, -, hp⟩ := (ebind_ok _ _ _).mp hp
  obtain ⟨u2, -, hp⟩ := (ebind_ok _ _ _).mp hp
  obtain ⟨u3, -, hp⟩ := (ebind_ok _ _ _).mp hp
  obtain ⟨pst, -, hp⟩ := (ebind_ok _ _ _).mp hp
  obtain ⟨u4, -, hp⟩ := (ebind_ok _ _ _).mp hp
  obtain ⟨pr, -, hp⟩ := (ebind_ok _ _ _).mp hp
  obtain ⟨sr, -, hp⟩ := (ebind_ok _ _ _).mp hp
  obtain ⟨fin, -, hp⟩ := (ebind_ok _ _ _).mp hp
  simp only [epure] at hp
  obtain rfl : _ = p := by simpa using hp
  simp

/-- C2 (amended): when the task carries a key id that resolves in the key
ring, any error raised by any stage inside the `try` block is caught
there: the task-completion reporter is invoked exactly once with the final
payload; if any stage raised, the reported payload is the `except` clause
conversion of that error — `success=false`, `error_message` carrying the
caught error, and no packages — while a normally completed `try` block
reports `success=true` with no error message; and when the reporter
returns normally no exception escapes the task run (the run's outcome is
exactly the reported payload).  The missing-key-identifier error is raised
before the `try` block and is excluded (see the counterexample). -/
theorem C2_errors_caught (cfg : Config) (keyIds : String → Option KeyInfo)
    (notar : Bool) (env : Env) (task : Task)
    (order : List (Option String × Pkg))
    (upOrder : List (String × DownTup) → List (String × DownTup))
    (keyid : String) (info : KeyInfo)
    (hk : task.keyid = some keyid) (hi : keyIds keyid = some info) :
    ∃ p : Payload,
      reportedPayloads (sign_build cfg keyIds notar env task order upOrder) = [p] ∧
      (p.success = false → p.error_message.isSome = true) ∧
      (p.success = true → p.error_message = none) ∧
      (∀ e, (bodyRun cfg env notar info task order upOrder keyid).2 = .error e →
        p.success = false ∧ p.error_message = some e ∧ p.packages = none) ∧
      (∀ q, (bodyRun cfg env notar info task order upOrder keyid).2 = .ok q →
        p.success = true ∧ p.error_message = none) ∧
      (env.reportOk = true →
        (sign_build cfg keyIds notar env task order upOrder).outcome = .ok p) := by
  have hnorep := bodyRun_no_report cfg env notar info task order upOrder keyid
  have hbodyEvs : (List.filterMap
      (fun ev => match ev with | Ev.reportEv p => some p | _ => none)
      (bodyRun cfg env notar info task order upOrder keyid).1) = [] := by
    apply List.filterMap_eq_nil.mpr
    intro ev hev
    cases ev <;> first
      | rfl
      | exact absurd rfl (hnorep _ hev _)
  simp only [sign_build, hk, hi]
  cases hb2 : (bodyRun cfg env notar info task order upOrder keyid).2 with
  | ok q =>
    obtain ⟨hq1, hq2, -, -⟩ :=
      bodyRun_ok_fields cfg env notar info task order upOrder keyid q hb2
    refine ⟨q, ?_, ?_, ?_, ?_, ?_, ?_⟩
    · cases hrep : env.reportOk <;>
        cases hdc : order.isEmpty <;>
        simp [reportedPayloads, hb2, hrep, hdc, List.filterMap_append, hbodyEvs]
    · intro hfalse; rw [hq1] at hfalse; cases hfalse
    · intro _; exact hq2
    · intro e he; cases he
    · intro q' _; exact ⟨hq1, hq2⟩
    · intro hrep; simp [hb2, hrep]
  | error e =>
    refine ⟨failPayload task e, ?_, ?_, ?_, ?_, ?_, ?_⟩
    · cases hrep : env.reportOk <;>
        cases hdc : order.isEmpty <;>
        simp [reportedPayloads, hb2, hrep, hdc, List.filterMap_append, hbodyEvs]
    · intro _; rfl
    · intro htrue; cases htrue
    · intro e' he'
      obtain rfl := Except.error.inj he'
      exact ⟨rfl, rfl, rfl⟩
    · intro q' hq'; cases hq'
    · intro hrep; simp [hb2, hrep]

/-- Witness for C2 at a concrete task on which a stage actually raises:
the verification collaborator fails on the second artifact, and the run
reports the converted `success=false` payload. -/
theorem C2_errors_caught_w :
    (∃ p : Payload,
      reportedPayloads (sign_build exCfg exKeyIds true exEnvVerFail exTaskCas
          exTaskCas.packages id) = [p] ∧
      (p.success = false → p.error_message.isSome = true) ∧
      (p.success = true → p.error_message = none) ∧
      (∀ e, (bodyRun exCfg exEnvVerFail true exInfo exTaskCas
          exTaskCas.packages id "KEY").2 = .error e →
        p.success = false ∧ p.error_message = some e ∧ p.packages = none) ∧
      (∀ q, (bodyRun exCfg exEnvVerFail true exInfo exTaskCas
          exTaskCas.packages id "KEY").2 = .ok q →
        p.success = true ∧ p.error_message = none) ∧
      (exEnvVerFail.reportOk = true →
        (sign_build exCfg exKeyIds true exEnvVerFail exTaskCas
            exTaskCas.packages id).outcome = .ok p)) ∧
    (bodyRun exCfg exEnvVerFail true exInfo exTaskCas
        exTaskCas.packages id "KEY").2
      = .error "SignError: Package b cannot be verified" :=
  ⟨C2_errors_caught exCfg exKeyIds true exEnvVerFail exTaskCas
    exTaskCas.packages id "KEY" exInfo rfl rfl, rfl⟩

/-- C2 counterexample: the claim as stated is false for the missing key
identifier (`ConfigError`) case: `SignError('No pgp keyid')` is raised
before the `try` block, escapes the task run, and the reporter is never
invoked. -/
theorem C2_cex :
    (sign_build exCfg exKeyIds false exEnv { exTask with keyid := none }
        exTask.packages id).outcome = .error "SignError: No pgp keyid" ∧
    reportedPayloads (sign_build exCfg exKeyIds false exEnv
        { exTask with keyid := none } exTask.packages id) = [] := by
  constructor <;> rfl

/-- C3 (amended): the staging directory does not exist after the task run
on every exit path on which the reporting call returns normally — on
success, on any stage error, and on the pre-`try` key errors (where it was
never created).  If the reporter itself raises, the removal is skipped
(see the counterexample). -/
theorem C3_staging_cleanup (cfg : Config) (keyIds : String → Option KeyInfo)
    (notar : Bool) (env : Env) (task : Task)
    (order : List (Option String × Pkg))
    (upOrder : List (String × DownTup) → List (String × DownTup))
    (hrep : env.reportOk = true) :
    (sign_build cfg keyIds notar env task order upOrder).dirExists = false := by
  simp only [sign_build]
  cases hk : task.keyid with
  | none => rfl
  | some keyid =>
    cases hi : keyIds keyid with
    | none => simp [hi]
    | some info => simp [hi, hrep]

/-- Witness for C3: a successful concrete run leaves no staging
directory. -/
theorem C3_staging_cleanup_w :
    (sign_build exCfg exKeyIds false exEnv exTask exTask.packages id).dirExists
      = false :=
  C3_staging_cleanup exCfg exKeyIds false exEnv exTask exTask.packages id rfl

/-- C3 counterexample: the claim as stated is false when the `Reporting`
step raises: `_report_signed_build` runs before `shutil.rmtree` inside the
same `finally` block, so its exception skips the removal and the staging
directory survives the task run. -/
theorem C3_cex :
    (sign_build exCfg exKeyIds false { exEnv with reportOk := false } exTask
        exTask.packages id).dirExists = true := by
  rfl

theorem dinsert_fresh {K V : Type} [DecidableEq K] (k : K) (v : V) :
    ∀ m : List (K × V), k ∉ m.map Prod.fst → dinsert k v m = m ++ [(k, v)] := by
  intro m
  induction m with
  | nil => intro _; rfl
  | cons kv rest ih =>
    intro hk
    obtain ⟨k', v'⟩ := kv
    simp only [List.map_cons, List.mem_cons, not_or] at hk
    simp only [dinsert, if_neg (fun hc : k' = k => hk.1 hc.symm)]
    rw [List.cons_append]
    exact congrArg _ (ih hk.2)

theorem downloadFold_nil (fp : String) (st : DownloadState) :
    downloadFold fp [] st = st := rfl

theorem downloadFold_cons (fp : String) (u : Option String × Pkg)
    (rest : List (Option String × Pkg)) (st : DownloadState) :
    downloadFold fp (u :: rest) st = downloadFold fp rest
      { pkg_info_mapping := dinsert (pkgPath u.1 u.2) u.2 st.pkg_info_mapping
        packages := dinsert u.2.id (initEntry fp u.2) st.packages
        downloaded := st.downloaded ++ [(u.2.id, u.2.fname, pkgPath u.1 u.2, u.1)] } :=
  rfl

theorem downloadPhase_ok (env : Env) (fp : String) :
    ∀ (l : List (Option String × Pkg)) (st : DownloadState),
      (∀ u ∈ l, env.download u.1 u.2 = .ok ()) →
      downloadPhase env fp l st
        = (l.map (fun u => Ev.downloadEv (pkgPath u.1 u.2)),
           .ok (downloadFold fp l st)) := by
  intro l
  induction l with
  | nil => intro st _; rfl
  | cons u rest ih =>
    intro st hdl
    obtain ⟨platform, pkg⟩ := u
    have hu := hdl _ (List.mem_cons_self _ _)
    simp only [downloadPhase, hu]
    rw [ih _ (fun v hv => hdl v (List.mem_cons_of_mem _ hv))]
    simp [downloadFold_cons]

theorem downloadFold_mapping (fp : String) :
    ∀ (l : List (Option String × Pkg)) (st : DownloadState),
      (l.map (fun u => pkgPath u.1 u.2)).Nodup →
      (∀ u ∈ l, pkgPath u.1 u.2 ∉ st.pkg_info_mapping.map Prod.fst) →
      (downloadFold fp l st).pkg_info_mapping
        = st.pkg_info_mapping ++ l.map (fun u => (pkgPath u.1 u.2, u.2)) := by
  intro l
  induction l with
  | nil => intro st _ _; simp [downloadFold_nil]
  | cons u rest ih =>
    intro st hnd hfresh
    rw [downloadFold_cons]
    have hfreshu := hfresh u (List.mem_cons_self _ _)
    have hnd' : (pkgPath u.1 u.2 :: rest.map fun v => pkgPath v.1 v.2).Nodup := by
      simpa using hnd
    have hkeys : (dinsert (pkgPath u.1 u.2) u.2 st.pkg_info_mapping).map Prod.fst
        = st.pkg_info_mapping.map Prod.fst ++ [pkgPath u.1 u.2] := by
      rw [dinsert_fresh _ _ _ hfreshu, List.map_append]
      rfl
    rw [ih _ (List.nodup_cons.mp hnd').2 ?fresh]
    · rw [dinsert_fresh _ _ _ hfreshu]
      simp
    case fresh =>
      intro v hv
      rw [hkeys]
      simp only [List.mem_append, List.mem_singleton]
      push_neg
      refine ⟨hfresh v (List.mem_cons_of_mem _ hv), ?_⟩
      have hne := (List.nodup_cons.mp hnd').1
      exact fun hc => hne (hc ▸ List.mem_map.mpr ⟨v, hv, rfl⟩)

theorem downloadFold_downloaded (fp : String) :
    ∀ (l : List (Option String × Pkg)) (st : DownloadState),
      (downloadFold fp l st).downloaded
        = st.downloaded ++ l.map (fun u => (u.2.id, u.2.fname, pkgPath u.1 u.2, u.1)) := by
  intro l
  induction l with
  | nil => intro st; simp [downloadFold_nil]
  | cons u rest ih =>
    intro st
    rw [downloadFold_cons, ih]
    simp

theorem verifyPhase_fails (env : Env) :
    ∀ (m : List (String × Pkg)) (acc : List (String × String))
      (path : String) (pkg : Pkg),
      (path, pkg) ∈ m → optTruthy pkg.cas_hash = true →
      (∀ s, env.verify path ≠ .ok (some s)) →
      ∃ e, (verifyPhase env true m acc).2 = .error e := by
  intro m
  induction m with
  | nil => intro acc path pkg hmem; cases hmem
  | cons u rest ih =>
    intro acc path pkg hmem hcas hvf
    obtain ⟨p0, q0⟩ := u
    rcases List.mem_cons.mp hmem with heq | hmem'
    · rw [Prod.mk.injEq] at heq
      obtain ⟨rfl, rfl⟩ := heq
      have hc : (true && optTruthy pkg.cas_hash) = true := by simp [hcas]
      cases hv : env.verify path with
      | error e => exact ⟨e, by simp [verifyPhase, hc, hv]⟩
      | ok o =>
        cases o with
        | none =>
          exact ⟨"SignError: Package " ++ pkg.name ++ " cannot be verified",
            by simp [verifyPhase, hc, hv]⟩
        | some s => exact absurd hv (hvf s)
    · cases hc : (true && optTruthy q0.cas_hash) with
      | false =>
        obtain ⟨e, he⟩ := ih acc path pkg hmem' hcas hvf
        exact ⟨e, by simp only [verifyPhase, hc, Bool.false_eq_true, if_false]; exact he⟩
      | true =>
        cases hv : env.verify p0 with
        | error e => exact ⟨e, by simp [verifyPhase, hc, hv]⟩
        | ok o =>
          cases o with
          | none =>
            exact ⟨"SignError: Package " ++ q0.name ++ " cannot be verified",
              by simp [verifyPhase, hc, hv]⟩
          | some s =>
            obtain ⟨e, he⟩ := ih (dinsert p0 s acc) path pkg hmem' hcas hvf
            refine ⟨e, ?_⟩
            simp only [verifyPhase, hc, if_true, hv]
            exact he

/-- The reporter is invoked exactly once, with the success payload of the
`try` block or the failure payload built from the caught error. -/
theorem sign_build_reported (cfg : Config) (keyIds : String → Option KeyInfo)
    (notar : Bool) (env : Env) (task : Task)
    (order : List (Option String × Pkg))
    (upOrder : List (String × DownTup) → List (String × DownTup))
    (keyid : String) (info : KeyInfo)
    (hk : task.keyid = some keyid) (hi : keyIds keyid = some info) :
    reportedPayloads (sign_build cfg keyIds notar env task order upOrder)
      = [match (bodyRun cfg env notar info task order upOrder keyid).2 with
          | .ok p => p
          | .error e => failPayload task e] := by
  have hnorep := bodyRun_no_report cfg env notar info task order upOrder keyid
  have hbodyEvs : (List.filterMap
      (fun ev => match ev with | Ev.reportEv p => some p | _ => none)
      (bodyRun cfg env notar info task order upOrder keyid).1) = [] := by
    apply List.filterMap_eq_nil.mpr
    intro ev hev
    cases ev <;> first
      | rfl
      | exact absurd rfl (hnorep _ hev _)
  simp only [sign_build, hk, hi]
  cases hb2 : (bodyRun cfg env notar info task order upOrder keyid).2 with
  | ok q =>
    cases hrep : env.reportOk <;>
      cases hdc : order.isEmpty <;>
      simp [reportedPayloads, hb2, hrep, hdc, List.filterMap_append, hbodyEvs]
  | error e =>
    cases hrep : env.reportOk <;>
      cases hdc : order.isEmpty <;>
      simp [reportedPayloads, hb2, hrep, hdc, List.filterMap_append, hbodyEvs]

/-- C7: with verification (notarization) enabled, when any single
downloaded artifact carrying a truthy pre-sign content hash fails
verification (its collaborator call raises or returns a falsy result), no
signing invocation of any kind (and no upload) is ever made for any
package of the task, and the reported payload has `success=false`. -/
theorem C7_verification_blocks_signing (cfg : Config)
    (keyIds : String → Option KeyInfo) (env : Env) (task : Task)
    (order : List (Option String × Pkg))
    (upOrder : List (String × DownTup) → List (String × DownTup))
    (keyid : String) (info : KeyInfo) (platform : Option String) (pkg : Pkg)
    (hk : task.keyid = some keyid) (hi : keyIds keyid = some info)
    (hdl : ∀ u ∈ order, env.download u.1 u.2 = .ok ())
    (hnodup : (order.map (fun u => pkgPath u.1 u.2)).Nodup)
    (hmem : (platform, pkg) ∈ order)
    (hcas : optTruthy pkg.cas_hash = true)
    (hvf : ∀ s, env.verify (pkgPath platform pkg) ≠ .ok (some s)) :
    (∀ ev ∈ (sign_build cfg keyIds true env task order upOrder).events,
        isSignEv ev = false ∧ ∀ pth, ev ≠ Ev.uploadEv pth) ∧
    ∃ p, reportedPayloads (sign_build cfg keyIds true env task order upOrder) = [p]
          ∧ p.success = false := by
  have hdp := downloadPhase_ok env info.fingerprint order ⟨[], [], []⟩ hdl
  have hdst2 : (downloadPhase env info.fingerprint order ⟨[], [], []⟩).2
      = .ok (downloadFold info.fingerprint order ⟨[], [], []⟩) := by rw [hdp]
  have hmap : (downloadFold info.fingerprint order ⟨[], [], []⟩).pkg_info_mapping
      = order.map (fun u => (pkgPath u.1 u.2, u.2)) :=
    downloadFold_mapping info.fingerprint order ⟨[], [], []⟩ hnodup (by simp)
  have hmemmap : (pkgPath platform pkg, pkg)
      ∈ (downloadFold info.fingerprint order ⟨[], [], []⟩).pkg_info_mapping := by
    rw [hmap]
    exact List.mem_map.mpr ⟨(platform, pkg), hmem, rfl⟩
  obtain ⟨e, hver⟩ := verifyPhase_fails env
    (downloadFold info.fingerprint order ⟨[], [], []⟩).pkg_info_mapping []
    _ _ hmemmap hcas hvf
  have hb2 : (bodyRun cfg env true info task order upOrder keyid).2 = .error e := by
    unfold bodyRun
    rw [ebind_eq_ok _ _ _ hdst2]
    show (ebind (verifyPhase env true
      (downloadFold info.fingerprint order ⟨[], [], []⟩).pkg_info_mapping []) _).2
        = .error e
    rw [ebind_eq_error _ _ _ hver]
  have hbody : ∀ ev ∈ (bodyRun cfg env true info task order upOrder keyid).1,
      isSignEv ev = false ∧ ∀ pth, ev ≠ Ev.uploadEv pth := by
    intro ev2 hev2
    unfold bodyRun at hev2
    rcases ebind_events_mem _ _ _ hev2 with h | ⟨dst', hdst', h⟩
    · obtain ⟨pth, rfl⟩ := downloadPhase_events_kind env info.fingerprint order _ _ h
      exact ⟨rfl, fun pth2 => by simp⟩
    · obtain rfl : dst' = downloadFold info.fingerprint order ⟨[], [], []⟩ := by
        rw [hdst2] at hdst'
        exact (Except.ok.inj hdst').symm
      rcases ebind_events_mem _ _ _ h with h | ⟨vm, hvm, h⟩
      · obtain ⟨pth, rfl⟩ := verifyPhase_events_kind env true _ _ _ h
        exact ⟨rfl, fun pth2 => by simp⟩
      · rw [hver] at hvm
        cases hvm
  constructor
  · intro ev hev
    simp only [sign_build, hk, hi] at hev
    cases hrep : env.reportOk
    · simp only [hrep] at hev
      simp at hev
      rcases hev with h | rfl
      · exact hbody ev h
      · exact ⟨rfl, fun pth2 => by simp⟩
    · simp only [hrep] at hev
      cases hdc : order.isEmpty
      · rw [hdc] at hev
        simp at hev
        rcases hev with h | rfl | rfl
        · exact hbody ev h
        · exact ⟨rfl, fun pth2 => by simp⟩
        · exact ⟨rfl, fun pth2 => by simp⟩
      · rw [hdc] at hev
        simp at hev
        rcases hev with h | rfl
        · exact hbody ev h
        · exact ⟨rfl, fun pth2 => by simp⟩
  · refine ⟨failPayload task e, ?_, rfl⟩
    rw [sign_build_reported cfg keyIds true env task order upOrder keyid info hk hi]
    rw [hb2]

/-- Witness for C7: three artifacts with pre-sign hashes, the second one
failing verification. -/
theorem C7_verification_blocks_signing_w :
    (∀ ev ∈ (sign_build exCfg exKeyIds true exEnvVerFail exTaskCas
        exTaskCas.packages id).events,
        isSignEv ev = false ∧ ∀ pth, ev ≠ Ev.uploadEv pth) ∧
    ∃ p, reportedPayloads (sign_build exCfg exKeyIds true exEnvVerFail exTaskCas
        exTaskCas.packages id) = [p] ∧ p.success = false := by
  refine C7_verification_blocks_signing exCfg exKeyIds exEnvVerFail exTaskCas
    exTaskCas.packages id "KEY" exInfo none exCasB rfl rfl ?_ (by decide) (by decide)
    rfl ?_
  · intro u hu
    rfl
  · intro s h
    exact Option.noConfusion (Except.ok.inj h)

theorem firstOccurrences_cons (env : Env) (t : DownTup) (rest : List DownTup)
    (seen : List String) :
    firstOccurrences env (t :: rest) seen
      = if env.sha256 (tupPath t) ∈ seen then firstOccurrences env rest seen
        else (env.sha256 (tupPath t), t)
              :: firstOccurrences env rest (seen ++ [env.sha256 (tupPath t)]) := rfl

theorem firstOccurrences_sha (env : Env) :
    ∀ (l : List DownTup) (seen : List String) (e : String × DownTup),
      e ∈ firstOccurrences env l seen → env.sha256 (tupPath e.2) = e.1 := by
  intro l
  induction l with
  | nil => intro seen e he; cases he
  | cons t rest ih =>
    intro seen e he
    rw [firstOccurrences_cons] at he
    by_cases hs : env.sha256 (tupPath t) ∈ seen
    · rw [if_pos hs] at he
      exact ih _ e he
    · rw [if_neg hs] at he
      rcases List.mem_cons.mp he with rfl | hmem
      · rfl
      · exact ih _ e hmem

theorem firstOccurrences_mem_tup (env : Env) :
    ∀ (l : List DownTup) (seen : List String) (e : String × DownTup),
      e ∈ firstOccurrences env l seen → e.2 ∈ l := by
  intro l
  induction l with
  | nil => intro seen e he; cases he
  | cons t rest ih =>
    intro seen e he
    rw [firstOccurrences_cons] at he
    by_cases hs : env.sha256 (tupPath t) ∈ seen
    · rw [if_pos hs] at he
      exact List.mem_cons_of_mem _ (ih _ e he)
    · rw [if_neg hs] at he
      rcases List.mem_cons.mp he with rfl | hmem
      · exact List.mem_cons_self _ _
      · exact List.mem_cons_of_mem _ (ih _ e hmem)

theorem firstOccurrences_keys_not_seen (env : Env) :
    ∀ (l : List DownTup) (seen : List String) (k : String),
      k ∈ (firstOccurrences env l seen).map Prod.fst → k ∉ seen := by
  intro l
  induction l with
  | nil => intro seen k hk; cases hk
  | cons t rest ih =>
    intro seen k hk
    rw [firstOccurrences_cons] at hk
    by_cases hs : env.sha256 (tupPath t) ∈ seen
    · rw [if_pos hs] at hk
      exact ih _ k hk
    · rw [if_neg hs] at hk
      rw [List.map_cons] at hk
      rcases List.mem_cons.mp hk with rfl | hmem
      · exact hs
      · intro hseen
        exact ih _ k hmem (List.mem_append_left _ hseen)

theorem firstOccurrences_keys_nodup (env : Env) :
    ∀ (l : List DownTup) (seen : List String),
      ((firstOccurrences env l seen).map Prod.fst).Nodup := by
  intro l
  induction l with
  | nil => intro seen; simp [firstOccurrences]
  | cons t rest ih =>
    intro seen
    rw [firstOccurrences_cons]
    by_cases hs : env.sha256 (tupPath t) ∈ seen
    · rw [if_pos hs]
      exact ih _
    · rw [if_neg hs]
      simp only [List.map_cons, List.nodup_cons]
      refine ⟨?_, ih _⟩
      intro hmem
      exact firstOccurrences_keys_not_seen env rest _ _ hmem
        (List.mem_append_right _ (List.mem_singleton.mpr rfl))

theorem firstOccurrences_keys_iff (env : Env) :
    ∀ (l : List DownTup) (seen : List String) (k : String),
      k ∈ (firstOccurrences env l seen).map Prod.fst
        ↔ (k ∉ seen ∧ ∃ t ∈ l, env.sha256 (tupPath t) = k) := by
  intro l
  induction l with
  | nil => intro seen k; simp [firstOccurrences]
  | cons t rest ih =>
    intro seen k
    rw [firstOccurrences_cons]
    by_cases hs : env.sha256 (tupPath t) ∈ seen
    · rw [if_pos hs, ih]
      constructor
      · rintro ⟨hk, t', ht', rfl⟩
        exact ⟨hk, t', List.mem_cons_of_mem _ ht', rfl⟩
      · rintro ⟨hk, t', ht', rfl⟩
        rcases List.mem_cons.mp ht' with rfl | hmem
        · exact absurd hs hk
        · exact ⟨hk, t', hmem, rfl⟩
    · rw [if_neg hs]
      rw [List.map_cons]
      constructor
      · intro hk
        rcases List.mem_cons.mp hk with rfl | hmem
        · exact ⟨hs, t, List.mem_cons_self _ _, rfl⟩
        · obtain ⟨hk2, t', ht', rfl⟩ := (ih _ _).mp hmem
          exact ⟨fun hc => hk2 (List.mem_append_left _ hc), t',
            List.mem_cons_of_mem _ ht', rfl⟩
      · rintro ⟨hk, t', ht', rfl⟩
        rcases List.mem_cons.mp ht' with rfl | hmem
        · exact List.mem_cons_self _ _
        · by_cases heq : env.sha256 (tupPath t') = env.sha256 (tupPath t)
          · rw [heq]
            exact List.mem_cons_self _ _
          · apply List.mem_cons_of_mem
            apply (ih _ _).mpr
            refine ⟨?_, t', hmem, rfl⟩
            simp only [List.mem_append, List.mem_singleton]
            push_neg
            exact ⟨hk, heq⟩

/-- The planning loop (lines 251-279), characterized: from a state whose
upload-dict keys are among the already-seen hashes, a successful run
appends exactly the first occurrence of every unseen hash, routed by
`parallelEligible`, and queues for audit exactly the first-occurrence
paths containing `.rpm`. -/
theorem planPhase_spec (cfg : Config) (env : Env) (notar : Bool)
    (verifMap : List (String × String)) :
    ∀ (l : List DownTup) (st : PlanState) (pst : PlanState),
      (∀ k ∈ st.parallel_upload_files.map Prod.fst, k ∈ st.files_to_upload) →
      (∀ k ∈ st.sequential_upload_files.map Prod.fst, k ∈ st.files_to_upload) →
      planPhase cfg env notar verifMap l st = .ok pst →
      pst.files_to_upload
          = st.files_to_upload
              ++ (firstOccurrences env l st.files_to_upload).map Prod.fst ∧
      pst.parallel_upload_files
          = st.parallel_upload_files
              ++ (firstOccurrences env l st.files_to_upload).filter
                  (fun e => parallelEligible cfg env (tupPath e.2)) ∧
      pst.sequential_upload_files
          = st.sequential_upload_files
              ++ (firstOccurrences env l st.files_to_upload).filter
                  (fun e => !parallelEligible cfg env (tupPath e.2)) ∧
      pst.files_to_check
          = st.files_to_check
              ++ ((firstOccurrences env l st.files_to_upload).map
                  (fun e => tupPath e.2)).filter (fun p => strContains p ".rpm") := by
  intro l
  induction l with
  | nil =>
    intro st pst h1 h2 hok
    obtain rfl : st = pst := by simpa [planPhase] using hok
    simp [firstOccurrences]
  | cons t rest ih =>
    intro st pst h1 h2 hok
    obtain ⟨pid, fname, path, platform⟩ := t
    have main : ∀ (pkgs1 : List (Nat × PkgEntry)),
        planPhase cfg env notar verifMap rest
          (let sha := env.sha256 path
           let st2 : PlanState :=
             if sha ∈ st.files_to_upload then
               { st with packages := pkgs1 }
             else
               { files_to_upload := st.files_to_upload ++ [sha]
                 parallel_upload_files :=
                   if parallelEligible cfg env path then
                     dinsert sha (pid, fname, path, platform) st.parallel_upload_files
                   else st.parallel_upload_files
                 sequential_upload_files :=
                   if parallelEligible cfg env path then st.sequential_upload_files
                   else dinsert sha (pid, fname, path, platform) st.sequential_upload_files
                 files_to_check :=
                   if strContains path ".rpm" then st.files_to_check ++ [path]
                   else st.files_to_check
                 packages := pkgs1 }
           { st2 with
               packages := dmod pid (fun en => { en with sha256 := some sha }) st2.packages })
          = .ok pst →
        pst.files_to_upload
            = st.files_to_upload
                ++ (firstOccurrences env ((pid, fname, path, platform) :: rest)
                    st.files_to_upload).map Prod.fst ∧
        pst.parallel_upload_files
            = st.parallel_upload_files
                ++ (firstOccurrences env ((pid, fname, path, platform) :: rest)
                    st.files_to_upload).filter
                    (fun e => parallelEligible cfg env (tupPath e.2)) ∧
        pst.sequential_upload_files
            = st.sequential_upload_files
                ++ (firstOccurrences env ((pid, fname, path, platform) :: rest)
                    st.files_to_upload).filter
                    (fun e => !parallelEligible cfg env (tupPath e.2)) ∧
        pst.files_to_check
            = st.files_to_check
                ++ ((firstOccurrences env ((pid, fname, path, platform) :: rest)
                    st.files_to_upload).map
                    (fun e => tupPath e.2)).filter (fun p => strContains p ".rpm") := by
      intro pkgs1 hok2
      simp only [] at hok2
      rw [firstOccurrences_cons]
      simp only [tupPath]
      by_cases hsha : env.sha256 path ∈ st.files_to_upload
      · rw [if_pos hsha] at hok2 ⊢
        exact ih ⟨st.files_to_upload, st.parallel_upload_files,
          st.sequential_upload_files, st.files_to_check,
          dmod pid (fun en => { en with sha256 := some (env.sha256 path) }) pkgs1⟩
          pst h1 h2 hok2
      · rw [if_neg hsha] at hok2 ⊢
        have hfresh1 : env.sha256 path ∉ st.parallel_upload_files.map Prod.fst :=
          fun hc => hsha (h1 _ hc)
        have hfresh2 : env.sha256 path ∉ st.sequential_upload_files.map Prod.fst :=
          fun hc => hsha (h2 _ hc)
        by_cases hel : parallelEligible cfg env path = true
        · simp only [if_pos hel] at hok2
          have key := ih _ pst ?subp ?subs hok2
          case subp =>
            intro k hk
            simp only [] at hk
            rw [dinsert_fresh _ _ _ hfresh1, List.map_append] at hk
            rcases List.mem_append.mp hk with hk | hk
            · exact List.mem_append_left _ (h1 _ hk)
            · simp only [List.map_cons, List.map_nil, List.mem_singleton] at hk
              subst hk
              exact List.mem_append_right _ (List.mem_singleton.mpr rfl)
          case subs =>
            intro k hk
            simp only [] at hk
            exact List.mem_append_left _ (h2 _ hk)
          obtain ⟨k1, k2, k3, k4⟩ := key
          refine ⟨?_, ?_, ?_, ?_⟩
          · rw [k1]
            simp
          · rw [k2, dinsert_fresh _ _ _ hfresh1]
            simp [hel, tupPath]
          · rw [k3]
            simp [hel, tupPath]
          · rw [k4]
            by_cases hrc : strContains path ".rpm" = true
            · simp [hrc, tupPath]
            · simp only [Bool.not_eq_true] at hrc
              simp [hrc, tupPath]
        · simp only [if_neg hel] at hok2
          have key := ih _ pst ?subp2 ?subs2 hok2
          case subp2 =>
            intro k hk
            simp only [] at hk
            exact List.mem_append_left _ (h1 _ hk)
          case subs2 =>
            intro k hk
            simp only [] at hk
            rw [dinsert_fresh _ _ _ hfresh2, List.map_append] at hk
            rcases List.mem_append.mp hk with hk | hk
            · exact List.mem_append_left _ (h2 _ hk)
            · simp only [List.map_cons, List.map_nil, List.mem_singleton] at hk
              subst hk
              exact List.mem_append_right _ (List.mem_singleton.mpr rfl)
          obtain ⟨k1, k2, k3, k4⟩ := key
          have helf : parallelEligible cfg env path = false := by
            simpa using hel
          refine ⟨?_, ?_, ?_, ?_⟩
          · rw [k1]
            simp
          · rw [k2]
            simp [helf, tupPath]
          · rw [k3, dinsert_fresh _ _ _ hfresh2]
            simp [helf, tupPath]
          · rw [k4]
            by_cases hrc : strContains path ".rpm" = true
            · simp [hrc, tupPath]
            · simp only [Bool.not_eq_true] at hrc
              simp [hrc, tupPath]
    rcases hlk : dlookup path verifMap with _ | m
    · simp only [planPhase, hlk] at hok
      exact main st.packages hok
    · cases hnot : notar with
      | false =>
        subst hnot
        simp only [planPhase, hlk, Bool.false_eq_true, if_false] at hok
        exact main st.packages hok
      | true =>
        subst hnot
        cases hno : env.notarize path m with
        | error e =>
          simp only [planPhase, hlk, hno, eq_self_iff_true, if_true] at hok
          cases hok
        | ok cas =>
          simp only [planPhase, hlk, hno, eq_self_iff_true, if_true] at hok
          exact main _ hok

/-- C9: a first-seen artifact is queued for parallel upload iff the
parallel-upload feature flag is enabled AND its file size is at or below
the configured threshold (whose shipped default is 52,428,800 bytes), and
is queued sequentially otherwise; the criterion is a pointwise function of
the artifact (flag and size only), so the assignment is deterministic and
independent of the processing order. -/
theorem C9_parallel_routing (cfg : Config) (env : Env) (notar : Bool)
    (verifMap : List (String × String)) (l : List DownTup)
    (pkgs : List (Nat × PkgEntry)) (pst : PlanState)
    (hok : planPhase cfg env notar verifMap l ⟨[], [], [], [], pkgs⟩ = .ok pst) :
    (∀ pth, parallelEligible cfg env pth
        = (cfg.parallel_upload
            && decide (env.fsize pth ≤ cfg.parallel_upload_file_size))) ∧
    DEFAULT_PARALLEL_FILE_UPLOAD_SIZE = 52428800 ∧
    pst.parallel_upload_files
      = (firstOccurrences env l []).filter
          (fun e => parallelEligible cfg env (tupPath e.2)) ∧
    pst.sequential_upload_files
      = (firstOccurrences env l []).filter
          (fun e => !parallelEligible cfg env (tupPath e.2)) ∧
    (∀ e ∈ firstOccurrences env l [],
      (e ∈ pst.parallel_upload_files
        ↔ parallelEligible cfg env (tupPath e.2) = true) ∧
      (e ∈ pst.sequential_upload_files
        ↔ parallelEligible cfg env (tupPath e.2) = false)) := by
  obtain ⟨k1, k2, k3, k4⟩ := planPhase_spec cfg env notar verifMap l
    ⟨[], [], [], [], pkgs⟩ pst (by simp) (by simp) hok
  have hpar : pst.parallel_upload_files
      = (firstOccurrences env l []).filter
          (fun e => parallelEligible cfg env (tupPath e.2)) := by simpa using k2
  have hseq : pst.sequential_upload_files
      = (firstOccurrences env l []).filter
          (fun e => !parallelEligible cfg env (tupPath e.2)) := by simpa using k3
  refine ⟨fun pth => rfl, rfl, hpar, hseq, ?_⟩
  intro e he
  constructor
  · rw [hpar, List.mem_filter]
    constructor
    · rintro ⟨-, h⟩
      exact h
    · intro h
      exact ⟨he, h⟩
  · rw [hseq, List.mem_filter]
    constructor
    · rintro ⟨-, h⟩
      simpa using h
    · intro h
      exact ⟨he, by simp [h]⟩

/-- Witness for C9 at a concrete plan: a small RPM goes parallel, an
oversized file goes sequential, a duplicate is queued nowhere. -/
theorem C9_parallel_routing_w :
    ∃ pst, planPhase exCfgPar exEnvSizes false [] exPlanTups ⟨[], [], [], [], []⟩
        = .ok pst ∧
      pst.parallel_upload_files
        = (firstOccurrences exEnvSizes exPlanTups []).filter
            (fun e => parallelEligible exCfgPar exEnvSizes (tupPath e.2)) ∧
      pst.sequential_upload_files
        = (firstOccurrences exEnvSizes exPlanTups []).filter
            (fun e => !parallelEligible exCfgPar exEnvSizes (tupPath e.2)) := by
  refine ⟨_, rfl, ?_, ?_⟩
  · exact (C9_parallel_routing exCfgPar exEnvSizes false [] exPlanTups [] _ rfl).2.2.1
  · exact (C9_parallel_routing exCfgPar exEnvSizes false [] exPlanTups [] _ rfl).2.2.2.1

/-- C10: the post-sign audit list contains exactly the first downloaded
artifact of each distinct sha256 whose local path contains the substring
`.rpm`: every audited path contains `.rpm`, hashes are pairwise distinct
among first occurrences, and every audited path is a first occurrence's
path — so byte-identical duplicates and artifacts whose path lacks `.rpm`
are never audited. -/
theorem C10_audit_only_first_rpm (cfg : Config) (env : Env) (notar : Bool)
    (verifMap : List (String × String)) (l : List DownTup)
    (pkgs : List (Nat × PkgEntry)) (pst : PlanState)
    (hok : planPhase cfg env notar verifMap l ⟨[], [], [], [], pkgs⟩ = .ok pst) :
    pst.files_to_check
      = ((firstOccurrences env l []).map (fun e => tupPath e.2)).filter
          (fun p => strContains p ".rpm") ∧
    (∀ p ∈ pst.files_to_check, strContains p ".rpm" = true) ∧
    ((firstOccurrences env l []).map Prod.fst).Nodup ∧
    (∀ p ∈ pst.files_to_check, ∃ e ∈ firstOccurrences env l [],
        p = tupPath e.2 ∧ env.sha256 p = e.1) := by
  obtain ⟨k1, k2, k3, k4⟩ := planPhase_spec cfg env notar verifMap l
    ⟨[], [], [], [], pkgs⟩ pst (by simp) (by simp) hok
  have hchk : pst.files_to_check
      = ((firstOccurrences env l []).map (fun e => tupPath e.2)).filter
          (fun p => strContains p ".rpm") := by simpa using k4
  refine ⟨hchk, ?_, firstOccurrences_keys_nodup env l [], ?_⟩
  · intro p hp
    rw [hchk] at hp
    exact (List.mem_filter.mp hp).2
  · intro p hp
    rw [hchk] at hp
    obtain ⟨hpm, -⟩ := List.mem_filter.mp hp
    obtain ⟨e, he, rfl⟩ := List.mem_map.mp hpm
    exact ⟨e, he, rfl, firstOccurrences_sha env l [] e he⟩

/-- Witness for C10: only the first RPM-suffixed occurrence is audited;
the oversized `.rpm`-free path and the byte-identical duplicate are
not. -/
theorem C10_audit_only_first_rpm_w :
    ∃ pst, planPhase exCfgPar exEnvSizes false [] exPlanTups ⟨[], [], [], [], []⟩
        = .ok pst ∧
      pst.files_to_check
        = ((firstOccurrences exEnvSizes exPlanTups []).map (fun e => tupPath e.2)).filter
            (fun p => strContains p ".rpm") ∧
      pst.files_to_check = ["rpms/1/a.rpm"] := by
  refine ⟨_, rfl, ?_, ?_⟩
  · exact (C10_audit_only_first_rpm exCfgPar exEnvSizes false [] exPlanTups [] _ rfl).1
  · rfl

theorem downloadPhase_ok_inv (env : Env) (fp : String) :
    ∀ (l : List (Option String × Pkg)) (st : DownloadState) (dst : DownloadState),
      (downloadPhase env fp l st).2 = .ok dst → dst = downloadFold fp l st := by
  intro l
  induction l with
  | nil =>
    intro st dst h
    rw [downloadFold_nil]
    have h2 : st = dst := by simpa [downloadPhase, epure] using h
    exact h2.symm
  | cons u rest ih =>
    intro st dst h
    obtain ⟨platform, pkg⟩ := u
    cases hdl : env.download platform pkg with
    | error e => simp [downloadPhase, hdl] at h
    | ok _ =>
      simp only [downloadPhase, hdl] at h
      rw [downloadFold_cons]
      exact ih _ dst h

theorem parallelUploadPhase_ok_events (env : Env) (taskId : Nat) :
    ∀ (l : List (String × DownTup)) (pkgs : List (Nat × PkgEntry))
      (hrefs : List (String × String)),
      (parallelUploadPhase env taskId l pkgs hrefs).2.isOk = true →
      (parallelUploadPhase env taskId l pkgs hrefs).1
        = l.map (fun e => Ev.uploadEv (tupPath e.2)) := by
  intro l
  induction l with
  | nil => intro pkgs hrefs _; rfl
  | cons u rest ih =>
    intro pkgs hrefs hok
    obtain ⟨sha, pid, fname, path, platform⟩ := u
    cases hu : env.upload path taskId platform pid fname with
    | error e => simp [parallelUploadPhase, hu, Except.isOk, Except.toBool] at hok
    | ok o =>
      cases o with
      | none => simp [parallelUploadPhase, hu, Except.isOk, Except.toBool] at hok
      | some h =>
        simp only [parallelUploadPhase, hu] at hok ⊢
        rw [ih _ _ hok]
        rfl

theorem sequentialUploadPhase_ok_events (env : Env) (taskId : Nat) :
    ∀ (l : List (String × DownTup)) (pkgs : List (Nat × PkgEntry))
      (hrefs : List (String × String)),
      (sequentialUploadPhase env taskId l pkgs hrefs).2.isOk = true →
      (sequentialUploadPhase env taskId l pkgs hrefs).1
        = l.map (fun e => Ev.uploadEv (tupPath e.2)) := by
  intro l
  induction l with
  | nil => intro pkgs hrefs _; rfl
  | cons u rest ih =>
    intro pkgs hrefs hok
    obtain ⟨sha, pid, fname, path, platform⟩ := u
    cases hu : env.upload path taskId platform pid fname with
    | error e => simp [sequentialUploadPhase, hu, Except.isOk, Except.toBool] at hok
    | ok o =>
      cases o with
      | none =>
        simp only [sequentialUploadPhase, hu] at hok ⊢
        rw [ih _ _ hok]
        rfl
      | some h =>
        simp only [sequentialUploadPhase, hu] at hok ⊢
        rw [ih _ _ hok]
        rfl

theorem uploadPaths_ebind_ok {α β : Type} (x : EStep α) (a : α) (hx : x.2 = .ok a) :
    ∀ f : α → EStep β,
      uploadPaths (ebind x f).1 = uploadPaths x.1 ++ uploadPaths (f a).1 := by
  intro f
  rw [ebind_eq_ok x f a hx]
  simp [uploadPaths, List.filterMap_append]

theorem uploadPaths_eq_nil (evs : List Ev)
    (h : ∀ ev ∈ evs, ∀ pth, ev ≠ Ev.uploadEv pth) : uploadPaths evs = [] := by
  apply List.filterMap_eq_nil.mpr
  intro ev hev
  cases ev <;> first
    | rfl
    | exact absurd rfl (h _ hev _)

theorem uploadPaths_map_uploadEv (l : List (String × DownTup)) :
    uploadPaths (l.map (fun e => Ev.uploadEv (tupPath e.2)))
      = l.map (fun e => tupPath e.2) := by
  induction l with
  | nil => rfl
  | cons u rest ih => simp [uploadPaths, List.filterMap_cons] at ih ⊢; exact ih

theorem countP_map_filter_split {α β : Type} (g : α → β) (p : β → Bool) (q : α → Bool) :
    ∀ l : List α,
      ((l.filter q).map g).countP p + ((l.filter (fun a => !q a)).map g).countP p
        = (l.map g).countP p := by
  intro l
  induction l with
  | nil => rfl
  | cons a rest ih =>
    cases hq : q a <;>
      simp [List.filter_cons, hq, List.countP_cons, ih.symm] <;> omega

/-- Counting hits of one hash among the first-occurrence paths: exactly one
when the hash occurs, zero otherwise. -/
theorem countP_firstOccurrences (env : Env) (h : String) :
    ∀ (l : List DownTup) (seen : List String),
      ((firstOccurrences env l seen).map (fun e => tupPath e.2)).countP
          (fun pth => env.sha256 pth == h)
        = if h ∈ (firstOccurrences env l seen).map Prod.fst then 1 else 0 := by
  intro l
  induction l with
  | nil => intro seen; simp [firstOccurrences]
  | cons t rest ih =>
    intro seen
    rw [firstOccurrences_cons]
    by_cases hs : env.sha256 (tupPath t) ∈ seen
    · rw [if_pos hs]
      exact ih _
    · rw [if_neg hs]
      simp only [List.map_cons, List.countP_cons, List.mem_cons]
      rw [ih (seen ++ [env.sha256 (tupPath t)])]
      by_cases hh : env.sha256 (tupPath t) = h
      · have hnot : h ∉ (firstOccurrences env rest
            (seen ++ [env.sha256 (tupPath t)])).map Prod.fst := by
          intro hc
          exact firstOccurrences_keys_not_seen env rest _ _ hc
            (List.mem_append_right _ (List.mem_singleton.mpr hh.symm))
        rw [if_neg hnot, if_pos (Or.inl hh.symm)]
        simp [hh]
      · have hbeq : (env.sha256 (tupPath t) == h) = false := by simp [hh]
        rw [hbeq]
        by_cases hmem : h ∈ (firstOccurrences env rest
            (seen ++ [env.sha256 (tupPath t)])).map Prod.fst
        · rw [if_pos hmem, if_pos (Or.inr hmem)]
          simp
        · have hno : ¬(h = env.sha256 (tupPath t) ∨ h ∈ (firstOccurrences env rest
              (seen ++ [env.sha256 (tupPath t)])).map Prod.fst) := by
            rintro (hc | hc)
            · exact hh hc.symm
            · exact hmem hc
          rw [if_neg hmem, if_neg hno]
          simp

/-- C4: in every task run that completes successfully, the upload
collaborator is invoked exactly once per distinct sha256 among the
downloaded artifacts — duplicates are not re-queued into either upload
set. -/
theorem C4_upload_once_per_hash (cfg : Config)
    (keyIds : String → Option KeyInfo) (notar : Bool) (env : Env) (task : Task)
    (order : List (Option String × Pkg))
    (upOrder : List (String × DownTup) → List (String × DownTup))
    (keyid : String) (info : KeyInfo) (p : Payload)
    (hk : task.keyid = some keyid) (hi : keyIds keyid = some info)
    (hperm : ∀ xs : List (String × DownTup), (upOrder xs).Perm xs)
    (hout : (sign_build cfg keyIds notar env task order upOrder).outcome = .ok p)
    (hsucc : p.success = true) :
    ∀ h : String,
      (uploadPaths (sign_build cfg keyIds notar env task order upOrder).events).countP
          (fun pth => env.sha256 pth == h)
        = if h ∈ order.map (fun u => env.sha256 (pkgPath u.1 u.2)) then 1 else 0 := by
  intro h
  -- the reporter did not raise, else the outcome would be an error
  cases hrep : env.reportOk with
  | false =>
    rw [show (sign_build cfg keyIds notar env task order upOrder).outcome
        = .error "report failed" from by simp [sign_build, hk, hi, hrep]] at hout
    cases hout
  | true =>
  -- the body returned the success payload
  cases hb2 : (bodyRun cfg env notar info task order upOrder keyid).2 with
  | error e =>
    rw [show (sign_build cfg keyIds notar env task order upOrder).outcome
        = .ok (failPayload task e) from by simp [sign_build, hk, hi, hrep, hb2]] at hout
    obtain rfl : failPayload task e = p := by simpa using hout
    cases hsucc
  | ok q =>
  rw [show (sign_build cfg keyIds notar env task order upOrder).outcome
      = .ok q from by simp [sign_build, hk, hi, hrep, hb2]] at hout
  obtain rfl : q = p := by simpa using hout
  -- decompose the successful body
  have hp := hb2
  unfold bodyRun at hp
  obtain ⟨dst, hdst, hp⟩ := (ebind_ok _ _ _).mp hp
  obtain ⟨vm, hvm, hp⟩ := (ebind_ok _ _ _).mp hp
  obtain ⟨u1, hsb, hp⟩ := (ebind_ok _ _ _).mp hp
  obtain ⟨u2, hsd, hp⟩ := (ebind_ok _ _ _).mp hp
  obtain ⟨u3, hsc, hp⟩ := (ebind_ok _ _ _).mp hp
  obtain ⟨pst, hpst, hp⟩ := (ebind_ok _ _ _).mp hp
  obtain ⟨u4, hchk, hp⟩ := (ebind_ok _ _ _).mp hp
  obtain ⟨pr, hpr, hp⟩ := (ebind_ok _ _ _).mp hp
  obtain ⟨sr, hsr, hp⟩ := (ebind_ok _ _ _).mp hp
  obtain ⟨fin, hfin, -⟩ := (ebind_ok _ _ _).mp hp
  -- events of the run reduce to the body's upload events
  have hPaths : uploadPaths (sign_build cfg keyIds notar env task order upOrder).events
      = uploadPaths (bodyRun cfg env notar info task order upOrder keyid).1 := by
    cases hdc : order.isEmpty <;>
      simp [sign_build, hk, hi, hrep, hdc, uploadPaths, List.filterMap_append]
  -- the body's upload events are the two upload loops' paths
  have hU : uploadPaths (bodyRun cfg env notar info task order upOrder keyid).1
      = (upOrder pst.parallel_upload_files).map (fun e => tupPath e.2)
          ++ pst.sequential_upload_files.map (fun e => tupPath e.2) := by
    have hn1 : uploadPaths (downloadPhase env info.fingerprint order ⟨[], [], []⟩).1 = [] :=
      uploadPaths_eq_nil _ (fun ev hev pth hc => by
        obtain ⟨pth2, rfl⟩ := downloadPhase_events_kind env info.fingerprint order _ ev hev
        cases hc)
    have hn2 : uploadPaths (verifyPhase env notar dst.pkg_info_mapping []).1 = [] :=
      uploadPaths_eq_nil _ (fun ev hev pth hc => by
        obtain ⟨pth2, rfl⟩ := verifyPhase_events_kind env notar _ _ ev hev
        cases hc)
    have hn3 : uploadPaths (signBatchesPhase env
        (rpmSignBatches (globFiles "rpms/" ".rpm" (dst.downloaded.map tupPath)))).1 = [] :=
      uploadPaths_eq_nil _ (fun ev hev pth hc => by
        obtain ⟨ps, rfl⟩ := signBatchesPhase_events_kind env _ ev hev
        cases hc)
    have hn4 : uploadPaths (signEachPhase Ev.signDebEv env.signDeb
        (globFiles "debs/" ".deb" (dst.downloaded.map tupPath))).1 = [] :=
      uploadPaths_eq_nil _ (fun ev hev pth hc => by
        obtain ⟨pth2, rfl⟩ := signEachPhase_events_kind Ev.signDebEv env.signDeb _ ev hev
        cases hc)
    have hn5 : uploadPaths (signEachPhase Ev.signDscEv env.signDsc
        (globFiles "debs/" ".dsc" (dst.downloaded.map tupPath))).1 = [] :=
      uploadPaths_eq_nil _ (fun ev hev pth hc => by
        obtain ⟨pth2, rfl⟩ := signEachPhase_events_kind Ev.signDscEv env.signDsc _ ev hev
        cases hc)
    have hpar : uploadPaths (parallelUploadPhase env task.id
        (upOrder pst.parallel_upload_files) pst.packages []).1
        = (upOrder pst.parallel_upload_files).map (fun e => tupPath e.2) := by
      rw [parallelUploadPhase_ok_events env task.id _ _ _ (by rw [hpr]; rfl)]
      exact uploadPaths_map_uploadEv _
    have hseq : uploadPaths (sequentialUploadPhase env task.id
        pst.sequential_upload_files pr.1 pr.2).1
        = pst.sequential_upload_files.map (fun e => tupPath e.2) := by
      rw [sequentialUploadPhase_ok_events env task.id _ _ _ (by rw [hsr]; rfl)]
      exact uploadPaths_map_uploadEv _
    unfold bodyRun
    simp only [uploadPaths_ebind_ok _ _ hdst, uploadPaths_ebind_ok _ _ hvm,
      uploadPaths_ebind_ok _ _ hsb, uploadPaths_ebind_ok _ _ hsd,
      uploadPaths_ebind_ok _ _ hsc, uploadPaths_ebind_ok _ _ hpst,
      uploadPaths_ebind_ok _ _ hchk, uploadPaths_ebind_ok _ _ hpr,
      uploadPaths_ebind_ok _ _ hsr, uploadPaths_ebind_ok _ _ hfin]
    rw [hn1, hn2, hn3, hn4, hn5, hpar, hseq]
    simp [uploadPaths, epure]
  -- planner characterization
  have hplan : planPhase cfg env notar vm dst.downloaded
      ⟨[], [], [], [], dst.packages⟩ = .ok pst := hpst
  obtain ⟨k1, k2, k3, k4⟩ := planPhase_spec cfg env notar vm dst.downloaded
    ⟨[], [], [], [], dst.packages⟩ pst (by simp) (by simp) hplan
  have hpar2 : pst.parallel_upload_files
      = (firstOccurrences env dst.downloaded []).filter
          (fun e => parallelEligible cfg env (tupPath e.2)) := by simpa using k2
  have hseq2 : pst.sequential_upload_files
      = (firstOccurrences env dst.downloaded []).filter
          (fun e => !parallelEligible cfg env (tupPath e.2)) := by simpa using k3
  -- downloads succeeded, so `downloaded` mirrors the task order
  have hdfold : dst = downloadFold info.fingerprint order ⟨[], [], []⟩ :=
    downloadPhase_ok_inv env info.fingerprint order _ dst hdst
  have hdl : dst.downloaded
      = order.map (fun u => (u.2.id, u.2.fname, pkgPath u.1 u.2, u.1)) := by
    rw [hdfold, downloadFold_downloaded]
    rfl
  -- count: permutation-invariance, split over the two sets, then dedup
  rw [hPaths, hU, List.countP_append]
  have hpermcount : ((upOrder pst.parallel_upload_files).map
        (fun e => tupPath e.2)).countP (fun pth => env.sha256 pth == h)
      = (pst.parallel_upload_files.map (fun e => tupPath e.2)).countP
          (fun pth => env.sha256 pth == h) :=
    ((hperm pst.parallel_upload_files).map _).countP_eq _
  rw [hpermcount, hpar2, hseq2, countP_map_filter_split]
  rw [countP_firstOccurrences]
  have hiff : h ∈ (firstOccurrences env dst.downloaded []).map Prod.fst
      ↔ h ∈ order.map (fun u => env.sha256 (pkgPath u.1 u.2)) := by
    rw [firstOccurrences_keys_iff, hdl]
    constructor
    · rintro ⟨-, t, ht, rfl⟩
      obtain ⟨u, hu, rfl⟩ := List.mem_map.mp ht
      exact List.mem_map.mpr ⟨u, hu, rfl⟩
    · intro hm
      obtain ⟨u, hu, rfl⟩ := List.mem_map.mp hm
      exact ⟨by simp, (u.2.id, u.2.fname, pkgPath u.1 u.2, u.1),
        List.mem_map.mpr ⟨u, hu, rfl⟩, rfl⟩
  rw [if_congr hiff rfl rfl]

/-- Witness for C4: two byte-identical packages, exactly one upload of
their common hash. -/
theorem C4_upload_once_per_hash_w :
    ∃ p, (sign_build exCfg exKeyIds false exEnv exTask exTask.packages id).outcome
        = .ok p ∧
      (uploadPaths (sign_build exCfg exKeyIds false exEnv exTask
          exTask.packages id).events).countP
          (fun pth => exEnv.sha256 pth == "h") = 1 := by
  refine ⟨_, rfl, ?_⟩
  rw [C4_upload_once_per_hash exCfg exKeyIds false exEnv exTask exTask.packages id
    "KEY" exInfo _ rfl rfl (fun xs => List.Perm.refl _) rfl (by decide) "h"]
  decide

theorem dmod_mem {K V : Type} [DecidableEq K] (k : K) (f : V → V) :
    ∀ (m : List (K × V)) (x : K × V), x ∈ dmod k f m →
      x ∈ m ∨ ∃ y ∈ m, y.1 = k ∧ x = (k, f y.2) := by
  intro m
  induction m with
  | nil => intro x hx; cases hx
  | cons kv rest ih =>
    intro x hx
    obtain ⟨k', v'⟩ := kv
    by_cases hk : k' = k
    · rw [dmod, if_pos hk] at hx
      rcases List.mem_cons.mp hx with rfl | hmem
      · exact Or.inr ⟨(k', v'), List.mem_cons_self _ _, hk, by rw [hk]⟩
      · exact Or.inl (List.mem_cons_of_mem _ hmem)
    · rw [dmod, if_neg hk] at hx
      rcases List.mem_cons.mp hx with rfl | hmem
      · exact Or.inl (List.mem_cons_self _ _)
      · rcases ih x hmem with h | ⟨y, hy, hyk, hxy⟩
        · exact Or.inl (List.mem_cons_of_mem _ h)
        · exact Or.inr ⟨y, List.mem_cons_of_mem _ hy, hyk, hxy⟩

theorem dmod_keys {K V : Type} [DecidableEq K] (k : K) (f : V → V) :
    ∀ m : List (K × V), (dmod k f m).map Prod.fst = m.map Prod.fst := by
  intro m
  induction m with
  | nil => rfl
  | cons kv rest ih =>
    obtain ⟨k', v'⟩ := kv
    by_cases hk : k' = k
    · rw [dmod, if_pos hk, hk]
      rfl
    · rw [dmod, if_neg hk]
      simp [ih]

theorem dmod_mem_nodup {K V : Type} [DecidableEq K] (k : K) (f : V → V)
    (m : List (K × V)) (hnd : (m.map Prod.fst).Nodup) (x : K × V)
    (hx : x ∈ dmod k f m) :
    (x ∈ m ∧ x.1 ≠ k) ∨ ∃ y ∈ m, y.1 = k ∧ x = (k, f y.2) := by
  induction m with
  | nil => cases hx
  | cons kv rest ih =>
    obtain ⟨k', v'⟩ := kv
    simp only [List.map_cons, List.nodup_cons] at hnd
    by_cases hk : k' = k
    · rw [dmod, if_pos hk] at hx
      rcases List.mem_cons.mp hx with rfl | hmem
      · exact Or.inr ⟨(k', v'), List.mem_cons_self _ _, hk, by rw [hk]⟩
      · left
        refine ⟨List.mem_cons_of_mem _ hmem, ?_⟩
        intro hc
        apply hnd.1
        have hx1 : x.1 ∈ rest.map Prod.fst := List.mem_map.mpr ⟨x, hmem, rfl⟩
        rw [hc, ← hk] at hx1
        exact hx1
    · rw [dmod, if_neg hk] at hx
      rcases List.mem_cons.mp hx with rfl | hmem
      · exact Or.inl ⟨List.mem_cons_self _ _, fun hc => hk hc⟩
      · rcases ih hnd.2 hmem with ⟨h, hne⟩ | ⟨y, hy, hyk, hxy⟩
        · exact Or.inl ⟨List.mem_cons_of_mem _ h, hne⟩
        · exact Or.inr ⟨y, List.mem_cons_of_mem _ hy, hyk, hxy⟩

theorem dlookup_dinsert_self {K V : Type} [DecidableEq K] (k : K) (v : V) :
    ∀ m : List (K × V), dlookup k (dinsert k v m) = some v := by
  intro m
  induction m with
  | nil => simp [dinsert, dlookup]
  | cons kv rest ih =>
    obtain ⟨k', v'⟩ := kv
    by_cases hk : k' = k
    · rw [dinsert, if_pos hk, dlookup, if_pos rfl]
    · rw [dinsert, if_neg hk, dlookup, if_neg hk]
      exact ih

theorem dlookup_dinsert_ne {K V : Type} [DecidableEq K] (k k' : K) (v : V)
    (hne : k' ≠ k) :
    ∀ m : List (K × V), dlookup k' (dinsert k v m) = dlookup k' m := by
  intro m
  induction m with
  | nil =>
    simp only [dinsert, dlookup]
    rw [if_neg (fun hc : k = k' => hne hc.symm)]
  | cons kv rest ih =>
    obtain ⟨k'', v''⟩ := kv
    by_cases hk : k'' = k
    · subst hk
      simp only [dinsert, if_pos rfl, dlookup]
      rw [if_neg (fun hc : k'' = k' => hne hc.symm),
        if_neg (fun hc : k'' = k' => hne hc.symm)]
    · simp only [dinsert, if_neg hk, dlookup]
      by_cases hk2 : k'' = k'
      · rw [if_pos hk2, if_pos hk2]
      · rw [if_neg hk2, if_neg hk2]
        exact ih

theorem dlookup_dmod {K V : Type} [DecidableEq K] (k pid : K) (f : V → V) :
    ∀ m : List (K × V),
      dlookup pid (dmod k f m)
        = if pid = k then (dlookup pid m).map f else dlookup pid m := by
  intro m
  induction m with
  | nil => by_cases h : pid = k <;> simp [dmod, dlookup, h]
  | cons kv rest ih =>
    obtain ⟨k', v'⟩ := kv
    by_cases hk : k' = k
    · subst hk
      rw [dmod, if_pos rfl]
      by_cases hp : pid = k'
      · subst hp
        rw [dlookup, if_pos rfl, dlookup, if_pos rfl, if_pos rfl]
        rfl
      · rw [dlookup, if_neg (fun hc : k' = pid => hp hc.symm),
          dlookup, if_neg (fun hc : k' = pid => hp hc.symm), if_neg hp]
    · rw [dmod, if_neg hk]
      by_cases hp : k' = pid
      · subst hp
        rw [dlookup, if_pos rfl, dlookup, if_pos rfl,
          if_neg (fun hc : k' = k => hk hc)]
      · rw [dlookup, if_neg hp, dlookup, if_neg hp]
        exact ih

theorem mem_dlookup {K V : Type} [DecidableEq K] :
    ∀ (m : List (K × V)) (k : K) (v : V),
      (m.map Prod.fst).Nodup → (k, v) ∈ m → dlookup k m = some v := by
  intro m
  induction m with
  | nil => intro k v _ h; cases h
  | cons kv rest ih =>
    intro k v hnd hm
    obtain ⟨k', v'⟩ := kv
    simp only [List.map_cons, List.nodup_cons] at hnd
    rcases List.mem_cons.mp hm with heq | hmem
    · rw [Prod.mk.injEq] at heq
      obtain ⟨rfl, rfl⟩ := heq
      rw [dlookup, if_pos rfl]
    · rw [dlookup, if_neg ?hne]
      · exact ih k v hnd.2 hmem
      case hne =>
        intro hc
        subst hc
        exact hnd.1 (List.mem_map.mpr ⟨(k', v), hmem, rfl⟩)

theorem dlookup_mem {K V : Type} [DecidableEq K] :
    ∀ (m : List (K × V)) (k : K) (v : V),
      dlookup k m = some v → (k, v) ∈ m := by
  intro m
  induction m with
  | nil => intro k v h; cases h
  | cons kv rest ih =>
    intro k v h
    obtain ⟨k', v'⟩ := kv
    by_cases hk : k' = k
    · subst hk
      rw [dlookup, if_pos rfl] at h
      obtain rfl := Option.some.inj h
      exact List.mem_cons_self _ _
    · rw [dlookup, if_neg hk] at h
      exact List.mem_cons_of_mem _ (ih k v h)

theorem dlookup_some_mem_keys {K V : Type} [DecidableEq K] :
    ∀ (m : List (K × V)) (k : K) (v : V),
      dlookup k m = some v → k ∈ m.map Prod.fst := by
  intro m k v h
  exact List.mem_map.mpr ⟨(k, v), dlookup_mem m k v h, rfl⟩

theorem keys_mem_dlookup_isSome {K V : Type} [DecidableEq K] :
    ∀ (m : List (K × V)) (k : K),
      k ∈ m.map Prod.fst → ∃ v, dlookup k m = some v := by
  intro m
  induction m with
  | nil => intro k h; cases h
  | cons kv rest ih =>
    intro k h
    obtain ⟨k', v'⟩ := kv
    by_cases hk : k' = k
    · exact ⟨v', by rw [dlookup, if_pos hk]⟩
    · rw [List.map_cons] at h
      rcases List.mem_cons.mp h with rfl | hmem
      · exact absurd rfl hk
      · obtain ⟨v, hv⟩ := ih k hmem
        exact ⟨v, by rw [dlookup, if_neg hk]; exact hv⟩

theorem pkgNameOf_dmod_href (k : Nat) (h0 : Option String) :
    ∀ (m : List (Nat × PkgEntry)) (pid : Nat),
      pkgNameOf (dmod k (fun en => { en with href := h0 }) m) pid
        = pkgNameOf m pid := by
  intro m pid
  unfold pkgNameOf
  rw [dlookup_dmod]
  by_cases hp : pid = k
  · rw [if_pos hp]
    cases dlookup pid m <;> rfl
  · rw [if_neg hp]

theorem downloadFold_packages (fp : String) :
    ∀ (l : List (Option String × Pkg)) (st : DownloadState),
      (l.map (fun u => u.2.id)).Nodup →
      (∀ u ∈ l, u.2.id ∉ st.packages.map Prod.fst) →
      (downloadFold fp l st).packages
        = st.packages ++ l.map (fun u => (u.2.id, initEntry fp u.2)) := by
  intro l
  induction l with
  | nil => intro st _ _; simp [downloadFold_nil]
  | cons u rest ih =>
    intro st hnd hfresh
    rw [downloadFold_cons]
    have hfreshu := hfresh u (List.mem_cons_self _ _)
    have hnd' : (u.2.id :: rest.map fun v => v.2.id).Nodup := by simpa using hnd
    have hkeys : (dinsert u.2.id (initEntry fp u.2) st.packages).map Prod.fst
        = st.packages.map Prod.fst ++ [u.2.id] := by
      rw [dinsert_fresh _ _ _ hfreshu, List.map_append]
      rfl
    rw [ih _ (List.nodup_cons.mp hnd').2 ?fresh]
    · rw [dinsert_fresh _ _ _ hfreshu]
      simp
    case fresh =>
      intro v hv
      rw [hkeys]
      simp only [List.mem_append, List.mem_singleton]
      push_neg
      refine ⟨hfresh v (List.mem_cons_of_mem _ hv), ?_⟩
      have hne := (List.nodup_cons.mp hnd').1
      exact fun hc => hne (hc ▸ List.mem_map.mpr ⟨v, hv, rfl⟩)

/-- C1 counterexample: with the parallel-upload feature disabled, the href
backfill of lines 335-341 is skipped entirely, so a byte-identical
duplicate that was never itself uploaded ends the (successful) run with no
href at all while its twin carries one. -/
theorem C1_cex :
    ∃ p, (sign_build exCfg exKeyIds false exEnv exTask exTask.packages id).outcome
        = .ok p ∧
      p.success = true ∧
      (p.packages.getD []).map PkgEntry.sha256 = [some "h", some "h"] ∧
      (p.packages.getD []).map PkgEntry.href = [some "H:rpms/1/a", none] := by
  exact ⟨_, rfl, by decide, by decide, by decide⟩

/-- The planning loop touches only the `packages` values: keys are
preserved, and every final entry descends from an initial entry with the
same key, name and href, its `sha256` rewritten to its own artifact's hash
whenever one of the processed tuples carries its package id. -/
theorem planPhase_entry_fields (cfg : Config) (env : Env) (notar : Bool)
    (verifMap : List (String × String)) :
    ∀ (l : List DownTup) (st : PlanState) (pst : PlanState),
      planPhase cfg env notar verifMap l st = .ok pst →
      (l.map (fun t : DownTup => t.1)).Nodup →
      (st.packages.map Prod.fst).Nodup →
      pst.packages.map Prod.fst = st.packages.map Prod.fst ∧
      ∀ x ∈ pst.packages, ∃ y ∈ st.packages,
        x.1 = y.1 ∧ x.2.name = y.2.name ∧ x.2.href = y.2.href ∧
        (((∀ t ∈ l, t.1 ≠ x.1) ∧ x.2.sha256 = y.2.sha256) ∨
          ∃ t ∈ l, t.1 = x.1 ∧ x.2.sha256 = some (env.sha256 t.2.2.1)) := by
  intro l
  induction l with
  | nil =>
    intro st pst hok hnd hndp
    obtain rfl : st = pst := by simpa [planPhase] using hok
    refine ⟨rfl, fun x hx => ⟨x, hx, rfl, rfl, rfl, Or.inl ⟨?_, rfl⟩⟩⟩
    intro t ht
    cases ht
  | cons t0 rest ih =>
    intro st pst hok hnd hndp
    obtain ⟨pid0, fname0, path0, plat0⟩ := t0
    simp only [List.map_cons, List.nodup_cons] at hnd
    have core : ∀ (pkgs1 : List (Nat × PkgEntry)),
        (∀ z ∈ pkgs1, ∃ w ∈ st.packages, z.1 = w.1 ∧ z.2.name = w.2.name
            ∧ z.2.href = w.2.href ∧ z.2.sha256 = w.2.sha256) →
        pkgs1.map Prod.fst = st.packages.map Prod.fst →
        ∀ (stX : PlanState),
          stX.packages
            = dmod pid0 (fun en => { en with sha256 := some (env.sha256 path0) }) pkgs1 →
          planPhase cfg env notar verifMap rest stX = .ok pst →
          pst.packages.map Prod.fst = st.packages.map Prod.fst ∧
          ∀ x ∈ pst.packages, ∃ y ∈ st.packages,
            x.1 = y.1 ∧ x.2.name = y.2.name ∧ x.2.href = y.2.href ∧
            (((∀ t ∈ (pid0, fname0, path0, plat0) :: rest, t.1 ≠ x.1)
                ∧ x.2.sha256 = y.2.sha256) ∨
              ∃ t ∈ (pid0, fname0, path0, plat0) :: rest,
                t.1 = x.1 ∧ x.2.sha256 = some (env.sha256 t.2.2.1)) := by
      intro pkgs1 hpre hkeys1 stX hstX hok3
      have hnd1 : (pkgs1.map Prod.fst).Nodup := by
        rw [hkeys1]
        exact hndp
      have hndX : (stX.packages.map Prod.fst).Nodup := by
        rw [hstX, dmod_keys, hkeys1]
        exact hndp
      obtain ⟨hkeys3, hmem3⟩ := ih stX pst hok3 hnd.2 hndX
      refine ⟨by rw [hkeys3, hstX, dmod_keys, hkeys1], ?_⟩
      intro x hx
      obtain ⟨y3, hy3, he1, he2, he3, hdisj⟩ := hmem3 x hx
      rw [hstX] at hy3
      rcases dmod_mem_nodup _ _ pkgs1 hnd1 y3 hy3 with ⟨hy3m, hy3ne⟩ | ⟨yv, hyv, hyvk, hy3eq⟩
      · obtain ⟨w, hw, hz1, hz2, hz3, hz4⟩ := hpre y3 hy3m
        refine ⟨w, hw, he1.trans hz1, he2.trans hz2, he3.trans hz3, ?_⟩
        rcases hdisj with ⟨hnone, hsha⟩ | ⟨t, ht, hteq, hsha⟩
        · refine Or.inl ⟨?_, hsha.trans hz4⟩
          intro t ht
          rcases List.mem_cons.mp ht with rfl | htm
          · exact fun hc => hy3ne ((hc.trans he1).symm)
          · exact hnone t htm
        · exact Or.inr ⟨t, List.mem_cons_of_mem _ ht, hteq, hsha⟩
      · obtain ⟨w, hw, hz1, hz2, hz3, hz4⟩ := hpre yv hyv
        have hx1 : x.1 = pid0 := he1.trans (by rw [hy3eq])
        have hxn : x.2.name = yv.2.name := he2.trans (by rw [hy3eq])
        have hxh : x.2.href = yv.2.href := he3.trans (by rw [hy3eq])
        refine ⟨w, hw, hx1.trans (hyvk ▸ hz1), hxn.trans hz2, hxh.trans hz3, ?_⟩
        rcases hdisj with ⟨hnone, hsha⟩ | ⟨t, ht, hteq, hsha⟩
        · refine Or.inr ⟨(pid0, fname0, path0, plat0), List.mem_cons_self _ _,
            hx1.symm, ?_⟩
          rw [hsha, hy3eq]
        · exact Or.inr ⟨t, List.mem_cons_of_mem _ ht, hteq, hsha⟩
    rcases hlk : dlookup path0 verifMap with _ | m
    · simp only [planPhase, hlk] at hok
      by_cases hsha : env.sha256 path0 ∈ st.files_to_upload
      · rw [if_pos hsha] at hok
        exact core st.packages (fun z hz => ⟨z, hz, rfl, rfl, rfl, rfl⟩) rfl _ rfl hok
      · rw [if_neg hsha] at hok
        exact core st.packages (fun z hz => ⟨z, hz, rfl, rfl, rfl, rfl⟩) rfl _ rfl hok
    · cases hnot : notar with
      | false =>
        subst hnot
        simp only [planPhase, hlk, Bool.false_eq_true, if_false] at hok
        by_cases hsha : env.sha256 path0 ∈ st.files_to_upload
        · rw [if_pos hsha] at hok
          exact core st.packages (fun z hz => ⟨z, hz, rfl, rfl, rfl, rfl⟩) rfl _ rfl hok
        · rw [if_neg hsha] at hok
          exact core st.packages (fun z hz => ⟨z, hz, rfl, rfl, rfl, rfl⟩) rfl _ rfl hok
      | true =>
        subst hnot
        cases hno : env.notarize path0 m with
        | error e =>
          simp only [planPhase, hlk, hno, eq_self_iff_true, if_true] at hok
          cases hok
        | ok cas =>
          simp only [planPhase, hlk, hno, eq_self_iff_true, if_true] at hok
          have hpre : ∀ z ∈ dmod pid0 (fun en => { en with cas_hash := some cas })
              st.packages,
              ∃ w ∈ st.packages, z.1 = w.1 ∧ z.2.name = w.2.name
                ∧ z.2.href = w.2.href ∧ z.2.sha256 = w.2.sha256 := by
            intro z hz
            rcases dmod_mem pid0 _ _ z hz with hzm | ⟨y, hy, hyk, hzeq⟩
            · exact ⟨z, hzm, rfl, rfl, rfl, rfl⟩
            · refine ⟨y, hy, ?_, ?_, ?_, ?_⟩ <;> rw [hzeq] <;> simp [hyk]
          by_cases hsha : env.sha256 path0 ∈ st.files_to_upload
          · rw [if_pos hsha] at hok
            exact core _ hpre (dmod_keys _ _ _) _ rfl hok
          · rw [if_neg hsha] at hok
            exact core _ hpre (dmod_keys _ _ _) _ rfl hok

theorem parallelUploadPhase_fields (env : Env) (tid : Nat) :
    ∀ (l : List (String × DownTup)) (pkgs : List (Nat × PkgEntry))
      (hrefs : List (String × String))
      (out : List (Nat × PkgEntry) × List (String × String)),
      (parallelUploadPhase env tid l pkgs hrefs).2 = .ok out →
      ∀ x ∈ out.1, ∃ y ∈ pkgs, x.1 = y.1 ∧ x.2.name = y.2.name
          ∧ x.2.sha256 = y.2.sha256 := by
  intro l
  induction l with
  | nil =>
    intro pkgs hrefs out hok x hx
    obtain rfl : (pkgs, hrefs) = out := by
      simpa [parallelUploadPhase, epure] using hok
    exact ⟨x, hx, rfl, rfl, rfl⟩
  | cons u rest ih =>
    intro pkgs hrefs out hok x hx
    obtain ⟨sha, pid, fname, path, platform⟩ := u
    cases hu : env.upload path tid platform pid fname with
    | error e => simp [parallelUploadPhase, hu] at hok
    | ok o =>
      cases o with
      | none => simp [parallelUploadPhase, hu] at hok
      | some h =>
        simp only [parallelUploadPhase, hu] at hok
        obtain ⟨y1, hy1, he1, he2, he3⟩ := ih _ _ out hok x hx
        rcases dmod_mem pid _ pkgs y1 hy1 with hym | ⟨y, hy, hyk, hyeq⟩
        · exact ⟨y1, hym, he1, he2, he3⟩
        · refine ⟨y, hy, ?_, ?_, ?_⟩
          · rw [he1, hyeq, ← hyk]
          · rw [he2, hyeq]
          · rw [he3, hyeq]

theorem sequentialUploadPhase_fields (env : Env) (tid : Nat) :
    ∀ (l : List (String × DownTup)) (pkgs : List (Nat × PkgEntry))
      (hrefs : List (String × String))
      (out : List (Nat × PkgEntry) × List (String × String)),
      (sequentialUploadPhase env tid l pkgs hrefs).2 = .ok out →
      ∀ x ∈ out.1, ∃ y ∈ pkgs, x.1 = y.1 ∧ x.2.name = y.2.name
          ∧ x.2.sha256 = y.2.sha256 := by
  intro l
  induction l with
  | nil =>
    intro pkgs hrefs out hok x hx
    obtain rfl : (pkgs, hrefs) = out := by
      simpa [sequentialUploadPhase, epure] using hok
    exact ⟨x, hx, rfl, rfl, rfl⟩
  | cons u rest ih =>
    intro pkgs hrefs out hok x hx
    obtain ⟨sha, pid, fname, path, platform⟩ := u
    cases hu : env.upload path tid platform pid fname with
    | error e => simp [sequentialUploadPhase, hu] at hok
    | ok o =>
      cases o with
      | none =>
        simp only [sequentialUploadPhase, hu] at hok
        exact ih _ _ out hok x hx
      | some h =>
        simp only [sequentialUploadPhase, hu] at hok
        obtain ⟨y1, hy1, he1, he2, he3⟩ := ih _ _ out hok x hx
        rcases dmod_mem pid _ pkgs y1 hy1 with hym | ⟨y, hy, hyk, hyeq⟩
        · exact ⟨y1, hym, he1, he2, he3⟩
        · refine ⟨y, hy, ?_, ?_, ?_⟩
          · rw [he1, hyeq, ← hyk]
          · rw [he2, hyeq]
          · rw [he3, hyeq]

/-- The parallel upload loop keeps the response dict coherent with
`packages_hrefs`: every entry is either not yet uploaded (no href) or its
href is retrievable from `packages_hrefs` under its own name.  Inserted
keys are the processed entries' package names; package keys and names are
unchanged. -/
theorem parallelUploadPhase_inv (env : Env) (tid : Nat) :
    ∀ (l : List (String × DownTup)) (pkgs : List (Nat × PkgEntry))
      (hrefs : List (String × String))
      (out : List (Nat × PkgEntry) × List (String × String)),
      (parallelUploadPhase env tid l pkgs hrefs).2 = .ok out →
      (pkgs.map Prod.fst).Nodup →
      (∀ x ∈ pkgs, x.2.href = none ∨ dlookup x.2.name hrefs = x.2.href) →
      (l.map (fun e => pkgNameOf pkgs e.2.1)).Nodup →
      (∀ e ∈ l, pkgNameOf pkgs e.2.1 ∉ hrefs.map Prod.fst) →
      (∀ x ∈ out.1, x.2.href = none ∨ dlookup x.2.name out.2 = x.2.href) ∧
      (∀ k ∈ out.2.map Prod.fst,
          k ∈ hrefs.map Prod.fst ∨ k ∈ l.map (fun e => pkgNameOf pkgs e.2.1)) ∧
      out.1.map Prod.fst = pkgs.map Prod.fst ∧
      (∀ pid, pkgNameOf out.1 pid = pkgNameOf pkgs pid) := by
  intro l
  induction l with
  | nil =>
    intro pkgs hrefs out hok hnd hco hnames hfresh
    obtain rfl : (pkgs, hrefs) = out := by
      simpa [parallelUploadPhase, epure] using hok
    exact ⟨hco, fun k hk => Or.inl hk, rfl, fun pid => rfl⟩
  | cons u rest ih =>
    intro pkgs hrefs out hok hnd hco hnames hfresh
    obtain ⟨sha, pid, fname, path, platform⟩ := u
    cases hu : env.upload path tid platform pid fname with
    | error e => simp [parallelUploadPhase, hu] at hok
    | ok o =>
      cases o with
      | none => simp [parallelUploadPhase, hu] at hok
      | some h =>
        simp only [parallelUploadPhase, hu] at hok
        have hfr : pkgNameOf pkgs pid ∉ hrefs.map Prod.fst :=
          hfresh _ (List.mem_cons_self _ _)
        simp only [List.map_cons, List.nodup_cons] at hnames
        have hkeys' : (dmod pid (fun en => { en with href := some h }) pkgs).map Prod.fst
            = pkgs.map Prod.fst := dmod_keys _ _ _
        have hnd' : ((dmod pid (fun en => { en with href := some h }) pkgs).map
            Prod.fst).Nodup := by
          rw [hkeys']
          exact hnd
        have hnameeq : ∀ pid', pkgNameOf
            (dmod pid (fun en => { en with href := some h }) pkgs) pid'
            = pkgNameOf pkgs pid' := fun pid' => pkgNameOf_dmod_href _ _ _ _
        have hinskeys : (dinsert (pkgNameOf pkgs pid) h hrefs).map Prod.fst
            = hrefs.map Prod.fst ++ [pkgNameOf pkgs pid] := by
          rw [dinsert_fresh _ _ _ hfr, List.map_append]
          rfl
        have hco' : ∀ x ∈ dmod pid (fun en => { en with href := some h }) pkgs,
            x.2.href = none
              ∨ dlookup x.2.name (dinsert (pkgNameOf pkgs pid) h hrefs) = x.2.href := by
          intro x hx
          rcases dmod_mem_nodup pid _ pkgs hnd x hx with ⟨hxm, _⟩ | ⟨y, hy, hyk, hxeq⟩
          · cases hxh : x.2.href with
            | none => exact Or.inl rfl
            | some hv =>
              rcases hco x hxm with hnone | hlook
              · rw [hxh] at hnone
                cases hnone
              · right
                have hkm : x.2.name ∈ hrefs.map Prod.fst := by
                  apply dlookup_some_mem_keys hrefs x.2.name hv
                  rw [hlook, hxh]
                have hne2 : x.2.name ≠ pkgNameOf pkgs pid := fun hc => hfr (hc ▸ hkm)
                rw [dlookup_dinsert_ne _ _ _ hne2, hlook, hxh]
          · right
            have hym : (pid, y.2) ∈ pkgs := by
              rw [← hyk]
              simpa using hy
            have hyl : dlookup pid pkgs = some y.2 := mem_dlookup pkgs pid y.2 hnd hym
            have hny : pkgNameOf pkgs pid = y.2.name := by
              unfold pkgNameOf
              rw [hyl]
              rfl
            rw [hxeq]
            show dlookup y.2.name (dinsert (pkgNameOf pkgs pid) h hrefs) = some h
            rw [← hny, dlookup_dinsert_self]
        have hnames' : (rest.map (fun e => pkgNameOf
            (dmod pid (fun en => { en with href := some h }) pkgs) e.2.1)).Nodup := by
          simp only [hnameeq]
          exact hnames.2
        have hfresh' : ∀ e ∈ rest, pkgNameOf
            (dmod pid (fun en => { en with href := some h }) pkgs) e.2.1
            ∉ (dinsert (pkgNameOf pkgs pid) h hrefs).map Prod.fst := by
          intro e he
          rw [hnameeq, hinskeys]
          simp only [List.mem_append, List.mem_singleton]
          push_neg
          refine ⟨hfresh e (List.mem_cons_of_mem _ he), ?_⟩
          intro hc
          exact hnames.1 (hc ▸ List.mem_map.mpr ⟨e, he, rfl⟩)
        obtain ⟨c1, c2, c3, c4⟩ := ih _ _ out hok hnd' hco' hnames' hfresh'
        refine ⟨c1, ?_, ?_, ?_⟩
        · intro k hk
          rcases c2 k hk with hk2 | hk2
          · rw [hinskeys] at hk2
            rcases List.mem_append.mp hk2 with hk3 | hk3
            · exact Or.inl hk3
            · right
              rw [List.map_cons]
              exact List.mem_cons.mpr (Or.inl (List.mem_singleton.mp hk3))
          · right
            rw [List.map_cons]
            refine List.mem_cons.mpr (Or.inr ?_)
            simp only [hnameeq] at hk2
            exact hk2
        · rw [c3, hkeys']
        · intro pid'
          rw [c4 pid', hnameeq pid']

/-- The sequential upload loop preserves the same coherence, given that
the uploaded `file_name` keys coincide with the owning packages' response
names. -/
theorem sequentialUploadPhase_inv (env : Env) (tid : Nat) :
    ∀ (l : List (String × DownTup)) (pkgs : List (Nat × PkgEntry))
      (hrefs : List (String × String))
      (out : List (Nat × PkgEntry) × List (String × String)),
      (sequentialUploadPhase env tid l pkgs hrefs).2 = .ok out →
      (pkgs.map Prod.fst).Nodup →
      (∀ x ∈ pkgs, x.2.href = none ∨ dlookup x.2.name hrefs = x.2.href) →
      (∀ e ∈ l, e.2.2.1 = pkgNameOf pkgs e.2.1) →
      (l.map (fun e => e.2.2.1)).Nodup →
      (∀ e ∈ l, e.2.2.1 ∉ hrefs.map Prod.fst) →
      ∀ x ∈ out.1, x.2.href = none ∨ dlookup x.2.name out.2 = x.2.href := by
  intro l
  induction l with
  | nil =>
    intro pkgs hrefs out hok hnd hco hagree hnames hfresh
    obtain rfl : (pkgs, hrefs) = out := by
      simpa [sequentialUploadPhase, epure] using hok
    exact hco
  | cons u rest ih =>
    intro pkgs hrefs out hok hnd hco hagree hnames hfresh
    obtain ⟨sha, pid, fname, path, platform⟩ := u
    simp only [List.map_cons, List.nodup_cons] at hnames
    cases hu : env.upload path tid platform pid fname with
    | error e => simp [sequentialUploadPhase, hu] at hok
    | ok o =>
      cases o with
      | none =>
        simp only [sequentialUploadPhase, hu] at hok
        exact ih _ _ out hok hnd hco
          (fun e he => hagree e (List.mem_cons_of_mem _ he)) hnames.2
          (fun e he => hfresh e (List.mem_cons_of_mem _ he))
      | some h =>
        simp only [sequentialUploadPhase, hu] at hok
        have hagree0 : fname = pkgNameOf pkgs pid :=
          hagree _ (List.mem_cons_self _ _)
        have hfr : fname ∉ hrefs.map Prod.fst := hfresh _ (List.mem_cons_self _ _)
        have hkeys' : (dmod pid (fun en => { en with href := some h }) pkgs).map Prod.fst
            = pkgs.map Prod.fst := dmod_keys _ _ _
        have hnd' : ((dmod pid (fun en => { en with href := some h }) pkgs).map
            Prod.fst).Nodup := by
          rw [hkeys']
          exact hnd
        have hnameeq : ∀ pid', pkgNameOf
            (dmod pid (fun en => { en with href := some h }) pkgs) pid'
            = pkgNameOf pkgs pid' := fun pid' => pkgNameOf_dmod_href _ _ _ _
        have hinskeys : (dinsert fname h hrefs).map Prod.fst
            = hrefs.map Prod.fst ++ [fname] := by
          rw [dinsert_fresh _ _ _ hfr, List.map_append]
          rfl
        have hco' : ∀ x ∈ dmod pid (fun en => { en with href := some h }) pkgs,
            x.2.href = none ∨ dlookup x.2.name (dinsert fname h hrefs) = x.2.href := by
          intro x hx
          rcases dmod_mem_nodup pid _ pkgs hnd x hx with ⟨hxm, _⟩ | ⟨y, hy, hyk, hxeq⟩
          · cases hxh : x.2.href with
            | none => exact Or.inl rfl
            | some hv =>
              rcases hco x hxm with hnone | hlook
              · rw [hxh] at hnone
                cases hnone
              · right
                have hkm : x.2.name ∈ hrefs.map Prod.fst := by
                  apply dlookup_some_mem_keys hrefs x.2.name hv
                  rw [hlook, hxh]
                have hne2 : x.2.name ≠ fname := fun hc => hfr (hc ▸ hkm)
                rw [dlookup_dinsert_ne _ _ _ hne2, hlook, hxh]
          · right
            have hym : (pid, y.2) ∈ pkgs := by
              rw [← hyk]
              simpa using hy
            have hyl : dlookup pid pkgs = some y.2 := mem_dlookup pkgs pid y.2 hnd hym
            have hny : fname = y.2.name := by
              rw [hagree0]
              unfold pkgNameOf
              rw [hyl]
              rfl
            rw [hxeq]
            show dlookup y.2.name (dinsert fname h hrefs) = some h
            rw [← hny, dlookup_dinsert_self]
        refine ih _ _ out hok hnd' hco' ?_ hnames.2 ?_
        · intro e he
          rw [hnameeq]
          exact hagree e (List.mem_cons_of_mem _ he)
        · intro e he
          rw [hinskeys]
          simp only [List.mem_append, List.mem_singleton]
          push_neg
          exact ⟨hfresh e (List.mem_cons_of_mem _ he),
            fun hc => hnames.1 (hc ▸ List.mem_map.mpr ⟨e, he, rfl⟩)⟩

/-- A successful backfill (lines 335-341) leaves every entry's href equal
to its name's `packages_hrefs` binding (and in particular present), given
that already-set hrefs agree with their bindings. -/
theorem fillHrefs_post (hrefs : List (String × String)) :
    ∀ (m out : List (Nat × PkgEntry)),
      fillHrefs hrefs m = .ok out →
      (∀ x ∈ m, x.2.href = none ∨ dlookup x.2.name hrefs = x.2.href) →
      ∀ y ∈ out, ∃ x ∈ m, y.1 = x.1 ∧ y.2.name = x.2.name
        ∧ y.2.sha256 = x.2.sha256
        ∧ y.2.href = dlookup y.2.name hrefs
        ∧ (dlookup y.2.name hrefs).isSome = true := by
  intro m
  induction m with
  | nil =>
    intro out hok hco y hy
    obtain rfl : ([] : List (Nat × PkgEntry)) = out := by
      simpa [fillHrefs] using hok
    cases hy
  | cons x0 rest ih =>
    intro out hok hco y hy
    obtain ⟨pid, en⟩ := x0
    by_cases htr : optTruthy en.href = true
    · rw [fillHrefs, if_pos htr] at hok
      cases hfill : fillHrefs hrefs rest with
      | error e => rw [hfill] at hok; cases hok
      | ok tl =>
        rw [hfill] at hok
        obtain rfl : (pid, en) :: tl = out := by simpa using hok
        have hlook : dlookup en.name hrefs = en.href := by
          rcases hco (pid, en) (List.mem_cons_self _ _) with hnone | hl
          · exfalso
            rw [hnone] at htr
            simp [optTruthy] at htr
          · exact hl
        rcases List.mem_cons.mp hy with rfl | hmem
        · refine ⟨(pid, en), List.mem_cons_self _ _, rfl, rfl, rfl, hlook.symm, ?_⟩
          rw [hlook]
          cases hxh : en.href with
          | none =>
            rw [hxh] at htr
            simp [optTruthy] at htr
          | some hv => rfl
        · obtain ⟨x, hx, hrests⟩ := ih tl hfill
            (fun z hz => hco z (List.mem_cons_of_mem _ hz)) y hmem
          exact ⟨x, List.mem_cons_of_mem _ hx, hrests⟩
    · rw [fillHrefs, if_neg htr] at hok
      cases hlk : dlookup en.name hrefs with
      | none => rw [hlk] at hok; cases hok
      | some h =>
        rw [hlk] at hok
        cases hfill : fillHrefs hrefs rest with
        | error e => rw [hfill] at hok; cases hok
        | ok tl =>
          rw [hfill] at hok
          obtain rfl : (pid, { en with href := some h }) :: tl = out := by
            simpa using hok
          rcases List.mem_cons.mp hy with rfl | hmem
          · refine ⟨(pid, en), List.mem_cons_self _ _, rfl, rfl, rfl, ?_, ?_⟩
            · show some h = dlookup en.name hrefs
              rw [hlk]
            · show (dlookup en.name hrefs).isSome = true
              rw [hlk]
              rfl
          · obtain ⟨x, hx, hrests⟩ := ih tl hfill
              (fun z hz => hco z (List.mem_cons_of_mem _ hz)) y hmem
            exact ⟨x, List.mem_cons_of_mem _ hx, hrests⟩

/-- Witness for C8 at concrete inputs. -/
theorem C8_download_retry_w :
    download_package (fun i => if i = 1 then .error "e1" else .ok ()) "p" 3
      = (2, .ok "p") ∧
    download_package (fun _ => .error "e") "p" 3 = (3, .error (some "e")) := by
  constructor
  · refine (C8_download_retry (fun i => if i = 1 then .error "e1" else .ok ())
      "p" "x" "x" "x").2.2 2 (by omega) (by omega) ?_ (by rfl)
    intro j hj1 hj2
    have hj : j = 1 := by omega
    subst hj
    exact ⟨"e1", rfl⟩
  · exact (C8_download_retry (fun _ => .error "e") "p" "e" "e" "e").2.1 rfl rfl rfl

/-- C1 (amended): with the parallel-upload feature enabled, whenever the
descriptors' content hashes pin down their artifact names (equal sha256
iff equal name), each descriptor's effective file name equals its name,
and package ids are distinct, every pair of response entries of a
successful run that carry the same sha256 carry the same — present —
href. -/
theorem C1_dedup_href (cfg : Config)
    (keyIds : String → Option KeyInfo) (notar : Bool) (env : Env) (task : Task)
    (order : List (Option String × Pkg))
    (upOrder : List (String × DownTup) → List (String × DownTup))
    (keyid : String) (info : KeyInfo) (p : Payload)
    (hk : task.keyid = some keyid) (hi : keyIds keyid = some info)
    (hperm : ∀ xs : List (String × DownTup), (upOrder xs).Perm xs)
    (hflag : cfg.parallel_upload = true)
    (hfn : ∀ u ∈ order, u.2.fname = u.2.name)
    (hsha : ∀ u ∈ order, ∀ v ∈ order,
      env.sha256 (pkgPath u.1 u.2) = env.sha256 (pkgPath v.1 v.2)
        ↔ u.2.name = v.2.name)
    (hids : (order.map (fun u => u.2.id)).Nodup)
    (hout : (sign_build cfg keyIds notar env task order upOrder).outcome = .ok p)
    (hsucc : p.success = true) :
    ∀ l, p.packages = some l → ∀ e1 ∈ l, ∀ e2 ∈ l,
      e1.sha256 = e2.sha256 → e1.href = e2.href ∧ e1.href.isSome = true := by
  -- the reporter did not raise, else the outcome would be an error
  cases hrep : env.reportOk with
  | false =>
    rw [show (sign_build cfg keyIds notar env task order upOrder).outcome
        = .error "report failed" from by simp [sign_build, hk, hi, hrep]] at hout
    cases hout
  | true =>
  -- the body returned the success payload
  cases hb2 : (bodyRun cfg env notar info task order upOrder keyid).2 with
  | error e =>
    rw [show (sign_build cfg keyIds notar env task order upOrder).outcome
        = .ok (failPayload task e) from by simp [sign_build, hk, hi, hrep, hb2]] at hout
    obtain rfl : failPayload task e = p := by simpa using hout
    cases hsucc
  | ok q =>
  rw [show (sign_build cfg keyIds notar env task order upOrder).outcome
      = .ok q from by simp [sign_build, hk, hi, hrep, hb2]] at hout
  obtain rfl : q = p := by simpa using hout
  -- decompose the successful body
  have hp := hb2
  unfold bodyRun at hp
  obtain ⟨dst, hdst, hp⟩ := (ebind_ok _ _ _).mp hp
  obtain ⟨vm, hvm, hp⟩ := (ebind_ok _ _ _).mp hp
  obtain ⟨u1, hsb, hp⟩ := (ebind_ok _ _ _).mp hp
  obtain ⟨u2, hsd, hp⟩ := (ebind_ok _ _ _).mp hp
  obtain ⟨u3, hsc, hp⟩ := (ebind_ok _ _ _).mp hp
  obtain ⟨pst, hpst, hp⟩ := (ebind_ok _ _ _).mp hp
  obtain ⟨u4, hchk, hp⟩ := (ebind_ok _ _ _).mp hp
  obtain ⟨pr, hpr, hp⟩ := (ebind_ok _ _ _).mp hp
  obtain ⟨sr, hsr, hp⟩ := (ebind_ok _ _ _).mp hp
  obtain ⟨fin, hfin, hp⟩ := (ebind_ok _ _ _).mp hp
  -- the final payload's package list
  have hpx : q.packages = some (fin.map Prod.snd) := by
    obtain rfl := Except.ok.inj hp
    rfl
  -- with the flag on, the tenth step is the backfill
  have hfill : fillHrefs sr.2 sr.1 = .ok fin := by simpa [hflag] using hfin
  -- downloads succeeded: `downloaded` and `packages` mirror the task order
  have hdfold : dst = downloadFold info.fingerprint order ⟨[], [], []⟩ :=
    downloadPhase_ok_inv env info.fingerprint order _ dst hdst
  have hdl : dst.downloaded
      = order.map (fun u => (u.2.id, u.2.fname, pkgPath u.1 u.2, u.1)) := by
    rw [hdfold, downloadFold_downloaded]
    rfl
  have hpk : dst.packages
      = order.map (fun u => (u.2.id, initEntry info.fingerprint u.2)) := by
    rw [hdfold, downloadFold_packages info.fingerprint order _ hids
      (fun u hu => by simp)]
    simp
  have hndk : (dst.packages.map Prod.fst).Nodup := by
    rw [hpk, List.map_map]
    exact hids
  have hndl : (dst.downloaded.map (fun t : DownTup => t.1)).Nodup := by
    rw [hdl, List.map_map]
    exact hids
  -- planner characterization
  obtain ⟨-, k2, k3, -⟩ := planPhase_spec cfg env notar vm dst.downloaded
    ⟨[], [], [], [], dst.packages⟩ pst (by simp) (by simp) hpst
  have hpar2 : pst.parallel_upload_files
      = (firstOccurrences env dst.downloaded []).filter
          (fun e => parallelEligible cfg env (tupPath e.2)) := by simpa using k2
  have hseq2 : pst.sequential_upload_files
      = (firstOccurrences env dst.downloaded []).filter
          (fun e => !parallelEligible cfg env (tupPath e.2)) := by simpa using k3
  obtain ⟨hkeysP, hPF⟩ := planPhase_entry_fields cfg env notar vm dst.downloaded
    ⟨[], [], [], [], dst.packages⟩ pst hpst hndl hndk
  simp only [] at hkeysP hPF
  -- id-injectivity of the task order
  have hidsInj : ∀ u ∈ order, ∀ v ∈ order, u.2.id = v.2.id → u = v :=
    fun u hu v hv h => List.inj_on_of_nodup_map hids hu hv h
  -- every planner output entry descends from a task unit
  have hPF2 : ∀ x ∈ pst.packages, ∃ u ∈ order,
      x.1 = u.2.id ∧ x.2.name = u.2.name ∧ x.2.href = none ∧
      x.2.sha256 = some (env.sha256 (pkgPath u.1 u.2)) := by
    intro x hx
    obtain ⟨y, hy, hk1, hk2, hk3, hdisj⟩ := hPF x hx
    rw [hpk] at hy
    obtain ⟨u, hu, hyeq⟩ := List.mem_map.mp hy
    rcases hdisj with ⟨hall, -⟩ | ⟨t, ht, htk, hts⟩
    · exfalso
      have hmem : (u.2.id, u.2.fname, pkgPath u.1 u.2, u.1) ∈ dst.downloaded := by
        rw [hdl]
        exact List.mem_map.mpr ⟨u, hu, rfl⟩
      apply hall _ hmem
      show u.2.id = x.1
      rw [hk1, ← hyeq]
    · rw [hdl] at ht
      obtain ⟨v, hv, hveq⟩ := List.mem_map.mp ht
      have hvu : v = u := by
        apply hidsInj v hv u hu
        have h1 : v.2.id = x.1 := by rw [← htk, ← hveq]
        rw [h1, hk1, ← hyeq]
      refine ⟨u, hu, ?_, ?_, ?_, ?_⟩
      · rw [hk1, ← hyeq]
      · rw [hk2, ← hyeq]
        rfl
      · rw [hk3, ← hyeq]
        rfl
      · rw [hts, ← hveq, hvu]
  have hndP : (pst.packages.map Prod.fst).Nodup := by
    rw [hkeysP]
    exact hndk
  -- the response name recorded for each task unit
  have hname : ∀ u ∈ order, pkgNameOf pst.packages u.2.id = u.2.name := by
    intro u hu
    have hkm : u.2.id ∈ pst.packages.map Prod.fst := by
      rw [hkeysP, hpk, List.map_map]
      exact List.mem_map.mpr ⟨u, hu, rfl⟩
    obtain ⟨v, hv⟩ := keys_mem_dlookup_isSome pst.packages u.2.id hkm
    have hxm : (u.2.id, v) ∈ pst.packages := dlookup_mem _ _ _ hv
    obtain ⟨w, hw, hx1, hx2, -, -⟩ := hPF2 (u.2.id, v) hxm
    have hwu : w = u := hidsInj w hw u hu (by rw [← hx1])
    unfold pkgNameOf
    rw [hv]
    show v.name = u.2.name
    rw [hwu] at hx2
    exact hx2
  -- first occurrences: underlying units, key-injectivity, names
  have hFOu : ∀ e ∈ firstOccurrences env dst.downloaded [], ∃ u ∈ order,
      e.2 = (u.2.id, u.2.fname, pkgPath u.1 u.2, u.1) ∧
      e.1 = env.sha256 (pkgPath u.1 u.2) := by
    intro e he
    have ht := firstOccurrences_mem_tup env dst.downloaded [] e he
    rw [hdl] at ht
    obtain ⟨u, hu, heq⟩ := List.mem_map.mp ht
    refine ⟨u, hu, heq.symm, ?_⟩
    have hsh := firstOccurrences_sha env dst.downloaded [] e he
    rw [← hsh, ← heq]
    rfl
  have hFOinj : ∀ e ∈ firstOccurrences env dst.downloaded [],
      ∀ e' ∈ firstOccurrences env dst.downloaded [], e.1 = e'.1 → e = e' :=
    fun e he e' he' h =>
      List.inj_on_of_nodup_map (firstOccurrences_keys_nodup env dst.downloaded [])
        he he' h
  have hFOnd : (firstOccurrences env dst.downloaded []).Nodup :=
    List.Nodup.of_map Prod.fst (firstOccurrences_keys_nodup env dst.downloaded [])
  have hFOname : ∀ e ∈ firstOccurrences env dst.downloaded [], ∀ u ∈ order,
      e.2 = (u.2.id, u.2.fname, pkgPath u.1 u.2, u.1) →
      pkgNameOf pst.packages e.2.1 = u.2.name := by
    intro e he u hu heq
    rw [heq]
    exact hname u hu
  have hFOnames : ((firstOccurrences env dst.downloaded []).map
      (fun e => pkgNameOf pst.packages e.2.1)).Nodup := by
    refine List.Nodup.map_on ?_ hFOnd
    intro e he e' he' hnm
    have hnmb : pkgNameOf pst.packages e.2.1 = pkgNameOf pst.packages e'.2.1 := hnm
    obtain ⟨u, hu, hequ, hsu⟩ := hFOu e he
    obtain ⟨u', hu', hequ', hsu'⟩ := hFOu e' he'
    rw [hFOname e he u hu hequ, hFOname e' he' u' hu' hequ'] at hnmb
    have hss : env.sha256 (pkgPath u.1 u.2) = env.sha256 (pkgPath u'.1 u'.2) :=
      (hsha u hu u' hu').mpr hnmb
    apply hFOinj e he e' he'
    rw [hsu, hsu']
    exact hss
  -- preconditions of the parallel upload loop
  have hPnames : ((upOrder pst.parallel_upload_files).map
      (fun e => pkgNameOf pst.packages e.2.1)).Nodup := by
    apply (((hperm pst.parallel_upload_files).map _).nodup_iff).mpr
    rw [hpar2]
    exact hFOnames.sublist ((List.filter_sublist _).map _)
  have cohInit : ∀ x ∈ pst.packages,
      x.2.href = none ∨ dlookup x.2.name ([] : List (String × String)) = x.2.href := by
    intro x hx
    obtain ⟨u, hu, -, -, hh, -⟩ := hPF2 x hx
    exact Or.inl hh
  obtain ⟨cohP, hrKeys, keysPr, namesPr⟩ := parallelUploadPhase_inv env task.id
    (upOrder pst.parallel_upload_files) pst.packages [] pr hpr hndP cohInit hPnames
    (fun e he => by simp)
  -- preconditions of the sequential upload loop
  have hagreeS : ∀ e ∈ pst.sequential_upload_files,
      e.2.2.1 = pkgNameOf pr.1 e.2.1 := by
    intro e he
    rw [hseq2] at he
    have heFO : e ∈ firstOccurrences env dst.downloaded [] :=
      List.mem_of_mem_filter he
    obtain ⟨u, hu, hequ, -⟩ := hFOu e heFO
    rw [namesPr, hFOname e heFO u hu hequ, hequ]
    exact hfn u hu
  have hnamesS : (pst.sequential_upload_files.map
      (fun e : String × DownTup => e.2.2.1)).Nodup := by
    rw [hseq2]
    refine List.Nodup.map_on ?_ (hFOnd.sublist (List.filter_sublist _))
    intro e he e' he' hnm
    have heFO := List.mem_of_mem_filter he
    have heFO' := List.mem_of_mem_filter he'
    obtain ⟨u, hu, hequ, hsu⟩ := hFOu e heFO
    obtain ⟨u', hu', hequ', hsu'⟩ := hFOu e' heFO'
    have hnm2 : u.2.fname = u'.2.fname := by
      rw [hequ, hequ'] at hnm
      exact hnm
    have hn : u.2.name = u'.2.name := by
      rw [← hfn u hu, ← hfn u' hu']
      exact hnm2
    have hss : env.sha256 (pkgPath u.1 u.2) = env.sha256 (pkgPath u'.1 u'.2) :=
      (hsha u hu u' hu').mpr hn
    apply hFOinj e heFO e' heFO'
    rw [hsu, hsu']
    exact hss
  have hfreshS : ∀ e ∈ pst.sequential_upload_files,
      e.2.2.1 ∉ pr.2.map Prod.fst := by
    intro e he hks
    rcases hrKeys _ hks with hk0 | hkP
    · simp at hk0
    · obtain ⟨e', he', hne⟩ := List.mem_map.mp hkP
      have hne2 : pkgNameOf pst.packages e'.2.1 = e.2.2.1 := hne
      have he'P : e' ∈ pst.parallel_upload_files := (hperm _).mem_iff.mp he'
      rw [hseq2] at he
      rw [hpar2] at he'P
      have heFO : e ∈ firstOccurrences env dst.downloaded [] :=
        List.mem_of_mem_filter he
      have heFO' : e' ∈ firstOccurrences env dst.downloaded [] :=
        List.mem_of_mem_filter he'P
      obtain ⟨u, hu, hequ, hsu⟩ := hFOu e heFO
      obtain ⟨u', hu', hequ', hsu'⟩ := hFOu e' heFO'
      have hn1 : u'.2.name = u.2.name := by
        rw [← hFOname e' heFO' u' hu' hequ', hne2, hequ]
        exact hfn u hu
      have hss : env.sha256 (pkgPath u'.1 u'.2) = env.sha256 (pkgPath u.1 u.2) :=
        (hsha u' hu' u hu).mpr hn1
      have hee : e' = e := hFOinj e' heFO' e heFO (by rw [hsu', hsu]; exact hss)
      have hel2 : parallelEligible cfg env (tupPath e'.2) = true := by
        have h3 := List.of_mem_filter he'P
        exact h3
      have helF : (!parallelEligible cfg env (tupPath e.2)) = true := by
        have h4 := List.of_mem_filter he
        exact h4
      rw [hee] at hel2
      rw [hel2] at helF
      simp at helF
  have hndPr : (pr.1.map Prod.fst).Nodup := by
    rw [keysPr]
    exact hndP
  have cohS := sequentialUploadPhase_inv env task.id pst.sequential_upload_files
    pr.1 pr.2 sr hsr hndPr cohP hagreeS hnamesS hfreshS
  -- backfill posterior and field tracing
  have hpost := fillHrefs_post sr.2 sr.1 fin hfill cohS
  have htrace : ∀ x ∈ sr.1, ∃ u ∈ order, x.2.name = u.2.name ∧
      x.2.sha256 = some (env.sha256 (pkgPath u.1 u.2)) := by
    intro x hx
    obtain ⟨y, hy, -, hn1, hs1⟩ := sequentialUploadPhase_fields env task.id
      pst.sequential_upload_files pr.1 pr.2 sr hsr x hx
    obtain ⟨z, hz, -, hn2, hs2⟩ := parallelUploadPhase_fields env task.id
      (upOrder pst.parallel_upload_files) pst.packages [] pr hpr y hy
    obtain ⟨u, hu, -, hn3, -, hs3⟩ := hPF2 z hz
    exact ⟨u, hu, by rw [hn1, hn2, hn3], by rw [hs1, hs2, hs3]⟩
  -- assemble the dedup property
  intro l hl e1 he1 e2 he2 h12
  have hleq : fin.map Prod.snd = l := by
    rw [hpx] at hl
    exact Option.some.inj hl
  subst hleq
  obtain ⟨y1, hy1, hye1⟩ := List.mem_map.mp he1
  obtain ⟨y2, hy2, hye2⟩ := List.mem_map.mp he2
  obtain ⟨x1, hx1, -, hn1, hs1, hh1, hiso1⟩ := hpost y1 hy1
  obtain ⟨x2, hx2, -, hn2, hs2, hh2, hiso2⟩ := hpost y2 hy2
  rw [hye1] at hn1 hs1 hh1 hiso1
  rw [hye2] at hn2 hs2 hh2 hiso2
  obtain ⟨v1, hv1, hnu1, hsu1⟩ := htrace x1 hx1
  obtain ⟨v2, hv2, hnu2, hsu2⟩ := htrace x2 hx2
  have hss : env.sha256 (pkgPath v1.1 v1.2) = env.sha256 (pkgPath v2.1 v2.2) := by
    have t1 : e1.sha256 = some (env.sha256 (pkgPath v1.1 v1.2)) := by rw [hs1, hsu1]
    have t2 : e2.sha256 = some (env.sha256 (pkgPath v2.1 v2.2)) := by rw [hs2, hsu2]
    rw [t1, t2] at h12
    exact Option.some.inj h12
  have hnn : e1.name = e2.name := by
    rw [hn1, hn2, hnu1, hnu2]
    exact (hsha v1 hv1 v2 hv2).mp hss
  refine ⟨?_, ?_⟩
  · rw [hh1, hh2, hnn]
  · rw [hh1]
    exact hiso1

/-- Witness for C1: the flag-enabled run over two same-named,
byte-identical packages gives both entries the same present href. -/
theorem C1_dedup_href_w :
    ∃ p, (sign_build exCfgPar exKeyIds false exEnv exTaskC1
        exTaskC1.packages id).outcome = .ok p ∧
      ∀ l, p.packages = some l → ∀ e1 ∈ l, ∀ e2 ∈ l,
        e1.sha256 = e2.sha256 → e1.href = e2.href ∧ e1.href.isSome = true := by
  refine ⟨_, rfl, ?_⟩
  exact C1_dedup_href exCfgPar exKeyIds false exEnv exTaskC1 exTaskC1.packages id
    "KEY" exInfo _ rfl rfl (fun xs => List.Perm.refl _) rfl (by decide) (by decide)
    (by decide) rfl (by decide)

end Signer
